import Mathlib

/-!
Verification of the SeQUeNCe parallel quantum-manager server
(`parallel/cpp_server/src/quantum_manager.{hpp,cpp}`, `utils.{hpp,tpp}`,
`circuit.hpp`) against its natural-language specification.

The C++ code is shallowly embedded.  Machine floating-point scalars are
modelled as elements of an arbitrary linearly ordered commutative ring `R`
(instantiated with `ℝ` this is the exact-arithmetic reading of the code;
witnesses instantiate `ℤ` so that the kernel can evaluate).  The two
irrational constants the gate set needs are passed as parameters:
`hc` stands for 1/√2 (the Hadamard coefficient) and `invSqrt p` stands for
1/√p (the normalisation qpp applies to post-measurement states).
Complex amplitudes are pairs over `R`.
-/

section QuantumManagerModel

variable {R : Type} [LinearOrderedCommRing R]

/-- Complex scalar over `R`: models `std::complex<double>` exactly
(re, im components). -/
structure Cx (R : Type) where
  re : R
  im : R
deriving DecidableEq

instance : Zero (Cx R) := ⟨⟨0, 0⟩⟩
instance : One (Cx R) := ⟨⟨1, 0⟩⟩
instance : Add (Cx R) := ⟨fun a b => ⟨a.re + b.re, a.im + b.im⟩⟩
instance : Neg (Cx R) := ⟨fun a => ⟨-a.re, -a.im⟩⟩
instance : Mul (Cx R) := ⟨fun a b => ⟨a.re * b.re - a.im * b.im, a.re * b.im + a.im * b.re⟩⟩

theorem cx_zero_mul (a : Cx R) : (0 : Cx R) * a = 0 := by
  show Cx.mk (0 * a.re - 0 * a.im) (0 * a.im + 0 * a.re) = Cx.mk 0 0
  rw [Cx.mk.injEq]
  constructor <;> ring

theorem cx_one_mul (a : Cx R) : (1 : Cx R) * a = a := by
  show Cx.mk (1 * a.re - 0 * a.im) (1 * a.im + 0 * a.re) = a
  cases a
  rw [Cx.mk.injEq]
  constructor <;> ring

theorem cx_add_zero (a : Cx R) : a + (0 : Cx R) = a := by
  show Cx.mk (a.re + 0) (a.im + 0) = a
  cases a
  rw [Cx.mk.injEq]
  constructor <;> ring

theorem cx_zero_add (a : Cx R) : (0 : Cx R) + a = a := by
  show Cx.mk (0 + a.re) (0 + a.im) = a
  cases a
  rw [Cx.mk.injEq]
  constructor <;> ring

/-- Squared modulus `re² + im²` of an amplitude (used for measurement
probabilities). -/
def cxNormSq (a : Cx R) : R := a.re * a.re + a.im * a.im

/-- Scalar multiple of an amplitude by a real coefficient. -/
def cxSmul (r : R) (a : Cx R) : Cx R := ⟨r * a.re, r * a.im⟩

/-- Amplitude vector (`Eigen::VectorXcd`). -/
abbrev Vec (R : Type) := List (Cx R)

/-- Fuel-based binary logarithm (structural recursion so that the kernel can
evaluate it).  `log2aux fuel n` is ⌊log₂ n⌋ when `n ≤ fuel`. -/
def log2aux : ℕ → ℕ → ℕ
  | 0, _ => 0
  | fuel + 1, n => if n ≤ 1 then 0 else 1 + log2aux fuel (n / 2)

/-- Number of qubits of a state vector of dimension `d` (qpp derives this
from the Eigen vector's dimension). -/
def nQubits (d : ℕ) : ℕ := log2aux d d

theorem log2aux_pow (n : ℕ) : ∀ fuel, 2 ^ n ≤ fuel → log2aux fuel (2 ^ n) = n := by
  induction n with
  | zero =>
    intro fuel h
    cases fuel with
    | zero => exact absurd h (by simp)
    | succ f => simp [log2aux]
  | succ n ih =>
    intro fuel h
    cases fuel with
    | zero =>
      exfalso
      have := Nat.pos_pow_of_pos (n + 1) (show 0 < 2 by omega)
      omega
    | succ f =>
      have h2 : ¬ (2 ^ (n + 1) ≤ 1) := by
        have : (2:ℕ) ^ 1 ≤ 2 ^ (n + 1) := Nat.pow_le_pow_right (by omega) (by omega)
        simp only [pow_one] at this
        omega
      have hdiv : 2 ^ (n + 1) / 2 = 2 ^ n := by
        rw [pow_succ]
        exact Nat.mul_div_cancel _ (by omega)
      have hf : 2 ^ n ≤ f := by
        have : 2 ^ n < 2 ^ (n + 1) := Nat.pow_lt_pow_right (by omega) (by omega)
        omega
      simp only [log2aux, if_neg h2, hdiv, ih f hf]
      omega

theorem nQubits_pow (n : ℕ) : nQubits (2 ^ n) = n :=
  log2aux_pow n (2 ^ n) (le_refl _)

/-! ### Bit-level index machinery

qpp stores an `n`-qubit state as a flat vector of `2^n` amplitudes in
big-endian qubit order: qubit `p` corresponds to bit `n-1-p` of the flat
index.  `mkIdx n f` builds the flat index whose qubit-`p` bit is `f p`,
and `posBit n p m` reads qubit `p`'s bit out of index `m`. -/

/-- Numeric value of a bit. -/
def bitv (b : Bool) : ℕ := if b then 1 else 0

/-- Flat index with qubit-`p` bit equal to `f p` (big-endian). -/
def mkIdx : ℕ → (ℕ → Bool) → ℕ
  | 0, _ => 0
  | n + 1, f => bitv (f 0) * 2 ^ n + mkIdx n (fun p => f (p + 1))

/-- Bit of qubit position `p` (big-endian) in flat index `m` of an
`n`-qubit register. -/
def posBit (n p m : ℕ) : Bool := m.testBit (n - 1 - p)

theorem bitv_le_one (b : Bool) : bitv b ≤ 1 := by cases b <;> simp [bitv]

theorem mkIdx_lt (n : ℕ) (f : ℕ → Bool) : mkIdx n f < 2 ^ n := by
  induction n generalizing f with
  | zero => simp [mkIdx]
  | succ n ih =>
    have h1 : bitv (f 0) * 2 ^ n ≤ 1 * 2 ^ n :=
      Nat.mul_le_mul_right _ (bitv_le_one _)
    rw [one_mul] at h1
    have h2 := ih (fun p => f (p + 1))
    have h3 : 2 ^ (n + 1) = 2 ^ n + 2 ^ n := by rw [pow_succ]; omega
    simp only [mkIdx]
    omega

theorem testBit_low (b : Bool) (n k m : ℕ) (_hm : m < 2 ^ n) (hk : k < n) :
    (bitv b * 2 ^ n + m).testBit k = m.testBit k := by
  rw [Nat.testBit_to_div_mod, Nat.testBit_to_div_mod]
  have hsplit : bitv b * 2 ^ n = bitv b * 2 ^ (n - k - 1) * 2 * 2 ^ k := by
    have h2 : (2:ℕ) ^ (n - k - 1) * 2 * 2 ^ k = 2 ^ n := by
      rw [mul_assoc, ← pow_succ', ← pow_add]
      congr 1
      omega
    rw [← h2]
    ring
  rw [hsplit, Nat.add_comm, Nat.add_mul_div_right _ _ (Nat.pos_pow_of_pos k (by omega)),
    Nat.add_mul_mod_self_right]

theorem testBit_high (b : Bool) (n m : ℕ) (hm : m < 2 ^ n) :
    (bitv b * 2 ^ n + m).testBit n = b := by
  rw [Nat.testBit_to_div_mod]
  rw [Nat.add_comm, Nat.add_mul_div_right _ _ (Nat.pos_pow_of_pos n (by omega)),
    Nat.div_eq_of_lt hm]
  cases b <;> simp [bitv]

theorem posBit_mkIdx (n p : ℕ) (f : ℕ → Bool) (hp : p < n) :
    posBit n p (mkIdx n f) = f p := by
  induction n generalizing p f with
  | zero => omega
  | succ n ih =>
    rcases Nat.eq_zero_or_pos p with hp0 | hppos
    · subst hp0
      show (bitv (f 0) * 2 ^ n + mkIdx n (fun q => f (q + 1))).testBit (n + 1 - 1 - 0) = f 0
      have h1 : n + 1 - 1 - 0 = n := by omega
      rw [h1]
      exact testBit_high _ _ _ (mkIdx_lt n _)
    · show (bitv (f 0) * 2 ^ n + mkIdx n (fun q => f (q + 1))).testBit (n + 1 - 1 - p) = f p
      have hlt : n + 1 - 1 - p < n := by omega
      rw [testBit_low _ _ _ _ (mkIdx_lt n _) hlt]
      have h2 := ih (p - 1) (fun q => f (q + 1)) (by omega)
      simp only [posBit] at h2
      have h3 : n + 1 - 1 - p = n - 1 - (p - 1) := by omega
      rw [h3, h2]
      congr 1
      omega

theorem mkIdx_congr (n : ℕ) (f g : ℕ → Bool) (h : ∀ p < n, f p = g p) :
    mkIdx n f = mkIdx n g := by
  induction n generalizing f g with
  | zero => rfl
  | succ n ih =>
    simp only [mkIdx]
    rw [h 0 (by omega), ih _ _ (fun p hp => h (p + 1) (by omega))]

theorem mkIdx_posBit (n : ℕ) : ∀ m < 2 ^ n, mkIdx n (fun p => posBit n p m) = m := by
  induction n with
  | zero => intro m hm; interval_cases m; rfl
  | succ n ih =>
    intro m hm
    simp only [mkIdx]
    have hmod : m % 2 ^ n < 2 ^ n := Nat.mod_lt _ (Nat.pos_pow_of_pos n (by omega))
    have hrest : mkIdx n (fun p => posBit (n + 1) (p + 1) m) = m % 2 ^ n := by
      rw [← ih (m % 2 ^ n) hmod]
      apply mkIdx_congr
      intro p hp
      have h1 : n + 1 - 1 - (p + 1) = n - 1 - p := by omega
      have h2 : n - 1 - p < n := by omega
      show m.testBit (n + 1 - 1 - (p + 1)) = (m % 2 ^ n).testBit (n - 1 - p)
      rw [h1, Nat.testBit_mod_two_pow]
      simp [h2]
    rw [hrest]
    have hhead : posBit (n + 1) 0 m = m.testBit n := by
      have h4 : n + 1 - 1 - 0 = n := by omega
      simp [posBit, h4]
    rw [hhead]
    have hlt2 : m / 2 ^ n < 2 := Nat.div_lt_of_lt_mul (by rw [pow_succ] at hm; omega)
    have hcases : m / 2 ^ n = 0 ∨ m / 2 ^ n = 1 := by
      generalize m / 2 ^ n = q at hlt2 ⊢
      omega
    have hbit : bitv (m.testBit n) = m / 2 ^ n := by
      rw [Nat.testBit_to_div_mod]
      rcases hcases with h0 | h1
      · simp [h0, bitv]
      · simp [h1, bitv]
    rw [hbit, Nat.mul_comm]
    exact Nat.div_add_mod m (2 ^ n)

/-- Flat index `m` with qubit `i`'s bit replaced by `b`. -/
def setPos (n i : ℕ) (b : Bool) (m : ℕ) : ℕ :=
  mkIdx n (fun p => if p = i then b else posBit n p m)

/-- Flat index `m` with the bits of qubits `i` and `j` exchanged
(the action of a SWAP gate on basis indices). -/
def swapPos (n i j m : ℕ) : ℕ :=
  mkIdx n (fun p => if p = i then posBit n j m else if p = j then posBit n i m else posBit n p m)

theorem posBit_swapPos (n i j m p : ℕ) (hp : p < n) :
    posBit n p (swapPos n i j m) =
      if p = i then posBit n j m else if p = j then posBit n i m else posBit n p m := by
  unfold swapPos
  rw [posBit_mkIdx _ _ _ hp]

theorem swapPos_involutive (n i j m : ℕ) (hi : i < n) (hj : j < n) (hm : m < 2 ^ n) :
    swapPos n i j (swapPos n i j m) = m := by
  show mkIdx n (fun p => if p = i then posBit n j (swapPos n i j m)
      else if p = j then posBit n i (swapPos n i j m)
      else posBit n p (swapPos n i j m)) = m
  have hcong : mkIdx n (fun p => if p = i then posBit n j (swapPos n i j m)
      else if p = j then posBit n i (swapPos n i j m)
      else posBit n p (swapPos n i j m)) = mkIdx n (fun p => posBit n p m) := by
    apply mkIdx_congr
    intro p hp
    by_cases hpi : p = i
    · rw [if_pos hpi, posBit_swapPos n i j m j hj]
      by_cases hji : j = i
      · rw [if_pos hji, hpi, hji]
      · rw [if_neg hji, if_pos rfl, hpi]
    · rw [if_neg hpi]
      by_cases hpj : p = j
      · rw [if_pos hpj, posBit_swapPos n i j m i hi, if_pos rfl, hpj]
      · rw [if_neg hpj, posBit_swapPos n i j m p hp, if_neg hpi, if_neg hpj]
  rw [hcong, mkIdx_posBit n m hm]

/-! ### Gate matrices and gate application

`quantum_manager.cpp` applies gates through qpp: `apply(state, gt.H, {i})`
etc.  A `k`-qubit gate applied at target positions acts on the flat vector by
`out[m] = Σ_r U[pattern of m at targets][r] · v[m with target bits set to r]`,
with qpp's big-endian qubit convention.  Gate matrices are functions on
basis-pattern indices. -/

/-- Gate matrix `gt.H` up to the 1/√2 coefficient, which is the parameter `hc`. -/
def Hmat (hc : R) : ℕ → ℕ → Cx R := fun a b => if a = 1 ∧ b = 1 then ⟨-hc, 0⟩ else ⟨hc, 0⟩

/-- Gate matrix `gt.X` (Pauli X). -/
def Xmat : ℕ → ℕ → Cx R := fun a b => if a = b then 0 else 1

/-- Gate matrix `gt.Y` (Pauli Y). -/
def Ymat : ℕ → ℕ → Cx R := fun a b =>
  if a = 0 ∧ b = 1 then ⟨0, -1⟩ else if a = 1 ∧ b = 0 then ⟨0, 1⟩ else 0

/-- Gate matrix `gt.Z` (Pauli Z). -/
def Zmat : ℕ → ℕ → Cx R := fun a b =>
  if a = b then (if a = 1 then ⟨-1, 0⟩ else 1) else 0

/-- Gate matrix `gt.SWAP` (two-qubit swap): permutation matrix exchanging patterns 01 and 10. -/
def SWAPmat : ℕ → ℕ → Cx R := fun a b =>
  if (a = 0 ∧ b = 0) ∨ (a = 1 ∧ b = 2) ∨ (a = 2 ∧ b = 1) ∨ (a = 3 ∧ b = 3) then 1 else 0

/-- qpp `apply(state, U, {i})` for a single-qubit gate `U`. -/
def applyGate1 (U : ℕ → ℕ → Cx R) (i : ℕ) (v : Vec R) : Vec R :=
  let n := nQubits v.length
  (List.range v.length).map (fun m =>
    U (bitv (posBit n i m)) 0 * v.getD (setPos n i false m) 0 +
    U (bitv (posBit n i m)) 1 * v.getD (setPos n i true m) 0)

/-- qpp `apply(state, U, {i, j})` for a two-qubit gate `U` (pattern `2·bᵢ+bⱼ`). -/
def applyGate2 (U : ℕ → ℕ → Cx R) (i j : ℕ) (v : Vec R) : Vec R :=
  let n := nQubits v.length
  (List.range v.length).map (fun m =>
    let a := 2 * bitv (posBit n i m) + bitv (posBit n j m)
    U a 0 * v.getD (setPos n i false (setPos n j false m)) 0 +
    U a 1 * v.getD (setPos n i false (setPos n j true m)) 0 +
    U a 2 * v.getD (setPos n i true (setPos n j false m)) 0 +
    U a 3 * v.getD (setPos n i true (setPos n j true m)) 0)

/-- qpp `applyCTRL(state, gt.X, {ctrl}, {tgt})`: controlled-X, i.e. the target
bit is flipped on the components where the control bit is set. -/
def applyCTRLX (ctrl tgt : ℕ) (v : Vec R) : Vec R :=
  let n := nQubits v.length
  (List.range v.length).map (fun m =>
    if posBit n ctrl m then v.getD (setPos n tgt (!posBit n tgt m) m) 0 else v.getD m 0)

/-- The function `vector_kron` (quantum_manager.cpp):
`out(i) = first(i / second_size) * second(i % second_size)`. -/
def vector_kron (first second : Vec R) : Vec R :=
  (List.range (first.length * second.length)).map
    (fun i => first.getD (i / second.length) 0 * second.getD (i % second.length) 0)

/-- The 0-qubit unit state `new_state(0) = complex<double>(1, 0)` used to seed
the kron fold in `prepare_state`. -/
def unitVec : Vec R := [1]

/-- The kron fold of `prepare_state`:
`for (auto state: old_states) new_state = vector_kron(&new_state, &state)`. -/
def kronAll (sts : List (Vec R)) : Vec R :=
  sts.foldl (fun acc s => vector_kron acc s) unitVec

/-! ### LRU cache (`utils.hpp` / `utils.tpp`)

The cache key is `tuple<Eigen::VectorXcd, vector<u_int>>`; `equal_to` compares
dimensions and then entries, i.e. structural equality of our model key.
`cache_aux` tracks allocated keys (its domain), `key_list` recency order. -/

/-- Model cache key: the `(state vector, qubit-index list)` pair. -/
abbrev KeyT (R : Type) := Vec R × List ℕ

structure LRUCache (K V : Type) where
  size : ℕ
  keyList : List K
  cache : List (K × V)
  cacheAux : List K
deriving DecidableEq

variable {K V : Type} [DecidableEq K]

/-- Eviction step at the head of `LRUCache::allocate`: when the key list is at
capacity, the least recently used key (back of the list) is erased from both
maps and popped. -/
def LRUCache.evictIfFull (c : LRUCache K V) : LRUCache K V :=
  if c.keyList.length = c.size then
    match c.keyList.getLast? with
    | some old => { c with cache := c.cache.filter (fun kv => decide (kv.1 ≠ old)),
                           cacheAux := c.cacheAux.filter (fun k => decide (k ≠ old)),
                           keyList := c.keyList.dropLast }
    | none => c
  else c

/-- Model of `LRUCache::allocate`: evict if necessary, then mark `key` most recent and
record it in `cache_aux`. -/
def LRUCache.allocate (c : LRUCache K V) (k : K) : LRUCache K V :=
  let c1 := c.evictIfFull
  { c1 with keyList := k :: c1.keyList, cacheAux := k :: c1.cacheAux }

/-- Association-list assignment `map[k] = v` (overwrite or insert). -/
def upsertA : List (K × V) → K → V → List (K × V)
  | [], k, v => [(k, v)]
  | (k1, v1) :: rest, k, v =>
    if k1 = k then (k, v) :: rest else (k1, v1) :: upsertA rest k v

/-- Model of `LRUCache::put`: allocate when not yet allocated, then `cache[key] = value`. -/
def LRUCache.put (c : LRUCache K V) (k : K) (v : V) : LRUCache K V :=
  let c1 := if k ∈ c.cacheAux then c else c.allocate k
  { c1 with cache := upsertA c1.cache k v }

/-- The splice-to-front recency update performed by `LRUCache::get` on a hit. -/
def LRUCache.touch (c : LRUCache K V) (k : K) : LRUCache K V :=
  { c with keyList := k :: c.keyList.erase k }

/-- The caching pattern shared by every branch of `apply_wrapper` and by
`measure_helper`: if the key is allocated, read the cached value (a waiter
blocked on the condition variable eventually reads the value `f k` that the
allocating thread computes and posts); otherwise allocate, compute, and post. -/
def withCache (c : LRUCache K V) (f : K → V) (k : K) : V × LRUCache K V :=
  if k ∈ c.cacheAux then
    match c.cache.lookup k with
    | some v => (v, c.touch k)
    | none => (f k, c)
  else
    let c1 := c.allocate k
    (f k, c1.put k (f k))

/-- The seven global caches of quantum_manager.cpp (`CACHE_SIZE` = 1024). -/
structure Caches (R : Type) where
  measCache : LRUCache (KeyT R) (List R × List (Vec R))
  hCache : LRUCache (KeyT R) (Vec R)
  xCache : LRUCache (KeyT R) (Vec R)
  yCache : LRUCache (KeyT R) (Vec R)
  zCache : LRUCache (KeyT R) (Vec R)
  cxCache : LRUCache (KeyT R) (Vec R)
  swapCache : LRUCache (KeyT R) (Vec R)
deriving DecidableEq

def emptyLRU (K V : Type) : LRUCache K V := ⟨1024, [], [], []⟩

def emptyCaches : Caches R :=
  ⟨emptyLRU _ _, emptyLRU _ _, emptyLRU _ _, emptyLRU _ _, emptyLRU _ _, emptyLRU _ _,
    emptyLRU _ _⟩

/-! The per-gate computations of `apply_wrapper` as functions of the cache
key, so that cache coherence can be stated. -/

def hComp (hc : R) : KeyT R → Vec R := fun k => applyGate1 (Hmat hc) (k.2.getD 0 0) k.1

def xComp : KeyT R → Vec R := fun k => applyGate1 Xmat (k.2.getD 0 0) k.1

def yComp : KeyT R → Vec R := fun k => applyGate1 Ymat (k.2.getD 0 0) k.1

def zComp : KeyT R → Vec R := fun k => applyGate1 Zmat (k.2.getD 0 0) k.1

def cxComp : KeyT R → Vec R := fun k => applyCTRLX (k.2.getD 0 0) (k.2.getD 1 0) k.1

def swapComp : KeyT R → Vec R := fun k => applyGate2 SWAPmat (k.2.getD 0 0) (k.2.getD 1 0) k.1

/-- The registered gate table of `apply_wrapper`. -/
def gateTable : List String := ["h", "x", "y", "z", "cx", "swap"]

/-- Model of `apply_wrapper(state, gate, indices)`: dispatch on the gate name with a
per-gate LRU cache; an unregistered gate throws
`invalid_argument("undefined gate " + gate)`. -/
def applyWrapper (hc : R) (caches : Caches R) (state : Vec R) (gate : String)
    (indices : List ℕ) : Except String (Vec R × Caches R) :=
  let key : KeyT R := (state, indices)
  if gate = "h" then
    let r := withCache caches.hCache (hComp hc) key
    .ok (r.1, { caches with hCache := r.2 })
  else if gate = "x" then
    let r := withCache caches.xCache xComp key
    .ok (r.1, { caches with xCache := r.2 })
  else if gate = "y" then
    let r := withCache caches.yCache yComp key
    .ok (r.1, { caches with yCache := r.2 })
  else if gate = "z" then
    let r := withCache caches.zCache zComp key
    .ok (r.1, { caches with zCache := r.2 })
  else if gate = "cx" then
    let r := withCache caches.cxCache cxComp key
    .ok (r.1, { caches with cxCache := r.2 })
  else if gate = "swap" then
    let r := withCache caches.swapCache swapComp key
    .ok (r.1, { caches with swapCache := r.2 })
  else .error ("undefined gate " ++ gate)

/-! ### The quantum manager (`quantum_manager.hpp`)

`QuantumManager` holds `map<string, State*> states`.  `State` objects live on
the heap (`new State(...)`); the map binds keys to pointers.  The model makes
the heap explicit: objects are identified by an allocation counter `fresh`,
`heap` associates identifiers with objects, and `bindings` associates keys
with either an object identifier or `none` (a null pointer, see `getOp`). -/

/-- Model of `class State`: co-owning key list plus amplitude vector. -/
structure StateObj (R : Type) where
  keys : List String
  state : Vec R
deriving DecidableEq

structure QM (R : Type) where
  bindings : List (String × Option ℕ)
  heap : List (ℕ × StateObj R)
  fresh : ℕ
deriving DecidableEq

def emptyQM : QM R := ⟨[], [], 0⟩

/-- Binding of a key in `states` (`none` = the key is absent from the map;
`some none` = the key is present but maps to a null `State*`). -/
def lookupB (qm : QM R) (k : String) : Option (Option ℕ) := qm.bindings.lookup k

/-- Dereference an object identifier. -/
def heapAt (qm : QM R) (oid : ℕ) : Option (StateObj R) := qm.heap.lookup oid

/-- The `State` object a key is bound to, when any. -/
def boundState (qm : QM R) (k : String) : Option (StateObj R) :=
  (lookupB qm k).bind (fun o => o.bind (heapAt qm))

/-- Association-list assignment for the bindings map. -/
def upsertB : List (String × Option ℕ) → String → Option ℕ → List (String × Option ℕ)
  | [], k, v => [(k, v)]
  | (k1, v1) :: rest, k, v =>
    if k1 = k then (k, v) :: rest else (k1, v1) :: upsertB rest k v

/-- Model of `QuantumManager::set(ks, VectorXcd amplitudes)`: allocate
`auto s = new State(amplitudes, ks)` and bind every `k ∈ ks` to it.  Keys not
in `ks` keep whatever binding they had. -/
def qmSetC (qm : QM R) (ks : List String) (amps : Vec R) : QM R :=
  { bindings := ks.foldl (fun b k => upsertB b k (some qm.fresh)) qm.bindings,
    heap := (qm.fresh, ⟨ks, amps⟩) :: qm.heap,
    fresh := qm.fresh + 1 }

/-- Conversion of the flat real list to complex amplitudes performed by the
`set(ks, vector<double>)` overload (consecutive pairs become re/im). -/
def pairUp : List R → Vec R
  | a :: b :: rest => ⟨a, b⟩ :: pairUp rest
  | _ => []

/-- Model of `QuantumManager::set(ks, vector<double> amplitudes)`. -/
def qmSetRaw (qm : QM R) (ks : List String) (amps : List R) : QM R :=
  qmSetC qm ks (pairUp amps)

/-- Model of `QuantumManager::get`: `return states[key];`.  `map::operator[]` on an
absent key default-constructs the mapped value — it inserts a null `State*`
under the key and returns it. -/
def getOp (qm : QM R) (k : String) : Option (StateObj R) × QM R :=
  match lookupB qm k with
  | some (some oid) => (heapAt qm oid, qm)
  | some none => (none, qm)
  | none => (none, { qm with bindings := qm.bindings ++ [(k, none)] })

/-- Model of `class Circuit` (circuit.hpp): size, named gates with index lists, and
measured qubit positions. -/
structure Circuit where
  size : ℕ
  gates : List (String × List ℕ)
  measured : List ℕ
deriving DecidableEq

/-! ### `QuantumManager::prepare_state` -/

/-- The gathering loop of `prepare_state`: for each requested key not yet seen
in `all_keys`, fetch its state (a null dereference if the key is unbound —
modelled as an error) and append its vector and its full key list. -/
def gatherAux (qm : QM R) : List String → List (Vec R) → List String →
    Except String (List (Vec R) × List String)
  | [], sts, ak => .ok (sts, ak)
  | k :: rest, sts, ak =>
    if k ∈ ak then gatherAux qm rest sts ak
    else
      match boundState qm k with
      | some S => gatherAux qm rest (sts ++ [S.state]) (ak ++ S.keys)
      | none => .error "null State dereference"

def gatherStates (qm : QM R) (keys : List String) :
    Except String (List (Vec R) × List String) :=
  gatherAux qm keys [] []

/-- One iteration of the qubit-reordering loop of `prepare_state` at position
`i`: when `all_keys[i]` differs from `keys[i]`, find `keys[i]` at position `j`,
swap qubits `i` and `j` of the state via a SWAP gate, and exchange the two key
entries.  An out-of-range qubit index would make qpp `apply` throw. -/
def fixStep (keys : List String) (vak : Vec R × List String) (i : ℕ) :
    Except String (Vec R × List String) :=
  let v := vak.1
  let ak := vak.2
  if ak.getD i "" = keys.getD i "" then .ok vak
  else
    let pk := keys.getD i ""
    let j := ak.indexOf pk
    if i < ak.length ∧ j < ak.length then
      .ok (applyGate2 SWAPmat i j v, (ak.set j (ak.getD i "")).set i pk)
    else .error "qubit index out of range"

/-- The reordering loop over `i = 0 .. keys.size()-1`. -/
def fixAll (keys : List String) (vak : Vec R × List String) :
    Except String (Vec R × List String) :=
  (List.range keys.length).foldlM (fixStep keys) vak

/-- Model of `QuantumManager::prepare_state`: gather, kron-compose, reorder. -/
def prepareState (qm : QM R) (keys : List String) :
    Except String (Vec R × List String) :=
  match gatherStates qm keys with
  | .error e => .error e
  | .ok (sts, ak0) => fixAll keys (kronAll sts, ak0)

/-! ### `QuantumManager::measure_helper`

The measurement core is qpp `measure(state, gt.Id(1 << m), indices)`:
a computational-basis measurement of the listed qubit positions.  Outcome
`r < 2^m` carries the measured bits big-endian in index-list order; its
probability is the squared mass of the matching amplitudes and its resultant
state is the remaining-qubit vector normalised by 1/√p (`invSqrt p`). -/

/-- Measured-bit pattern of flat index `mf` (bits of the positions in
`indices`, in list order). -/
def measPat (n : ℕ) (indices : List ℕ) (mf : ℕ) : ℕ :=
  mkIdx indices.length (fun i => posBit n (indices.getD i 0) mf)

/-- Outcome probabilities returned by qpp `measure`. -/
def probsOf (v : Vec R) (indices : List ℕ) : List R :=
  let n := nQubits v.length
  (List.range (2 ^ indices.length)).map (fun r =>
    (((List.range v.length).filter (fun mf => measPat n indices mf = r)).map
      (fun mf => cxNormSq (v.getD mf 0))).sum)

/-- The non-measured qubit positions, in increasing order. -/
def remPositions (n : ℕ) (indices : List ℕ) : List ℕ :=
  (List.range n).filter (fun p => decide (p ∉ indices))

/-- Flat index of the full register whose measured positions carry the bits of
outcome `r` and whose remaining positions carry the bits of remainder index
`j`. -/
def mergeIdx (n : ℕ) (indices : List ℕ) (r j : ℕ) : ℕ :=
  mkIdx n (fun p =>
    if p ∈ indices then posBit indices.length (indices.indexOf p) r
    else posBit (n - indices.length) ((remPositions n indices).indexOf p) j)

/-- Resultant (post-measurement, measured-subsystem-removed) states returned
by qpp `measure`, normalised by `invSqrt` of the outcome probability. -/
def resultantsOf (invSqrt : R → R) (v : Vec R) (indices : List ℕ) : List (Vec R) :=
  let n := nQubits v.length
  let m := indices.length
  let pr := probsOf v indices
  (List.range (2 ^ m)).map (fun r =>
    (List.range (2 ^ (n - m))).map (fun j =>
      cxSmul (invSqrt (pr.getD r 0)) (v.getD (mergeIdx n indices r j) 0)))

/-- The measurement computation cached in `measure_cache`, as a function of
the cache key. -/
def measComp (invSqrt : R → R) : KeyT R → List R × List (Vec R) :=
  fun k => (probsOf k.1 k.2, resultantsOf invSqrt k.1 k.2)

/-- The outcome-selection loop of `measure_helper`:
`while (res < probs.size()) { cum_sum += probs[res]; if (samp < cum_sum)
break; res++; }`. -/
def selectAux (samp : R) : R → List R → ℕ
  | _, [] => 0
  | cum, p :: rest => if samp < cum + p then 0 else selectAux samp (cum + p) rest + 1

def selectRes (probs : List R) (samp : R) : ℕ := selectAux samp 0 probs

/-- Vector `state0` of `measure_helper`. -/
def ket0 : Vec R := [⟨1, 0⟩, ⟨0, 0⟩]

/-- Vector `state1` of `measure_helper`. -/
def ket1 : Vec R := [⟨0, 0⟩, ⟨1, 0⟩]

/-- The list `output_states` holding the two singletons. -/
def outputStates : List (Vec R) := [ket0, ket1]

/-- The per-measured-qubit assignment loop body of `measure_helper`:
`res_bit = (res >> (m-1-i)) & 1; set({all_keys[index]},
output_states[res_bit]); output[all_keys[index]] = res_bit`. -/
def measAssign (res m : ℕ) (all_keys : List String)
    (acc : QM R × List (String × ℕ)) (ii : ℕ × ℕ) : QM R × List (String × ℕ) :=
  let res_bit := (res >>> (m - 1 - ii.1)) % 2
  let k := all_keys.getD ii.2 ""
  (qmSetC acc.1 [k] ((outputStates (R := R)).getD res_bit []), upsertA acc.2 k res_bit)

/-- The `no_measure_keys` collection loop of `measure_helper`: for each measured
index `end` in order, push the keys at positions from the cursor up to (not
including) `end`, then move the cursor past `end`. -/
def noMeasureKeys (indices : List ℕ) (all_keys : List String) : List String :=
  (indices.foldl
    (fun (acc : List String × ℕ) e =>
      (acc.1 ++ (List.range' acc.2 (e - acc.2)).map (fun t => all_keys.getD t ""), e + 1))
    ([], 0)).1

/-- Model of `QuantumManager::measure_helper(state, indices, all_keys, samp)`: consult
the measurement cache, select the outcome by cumulative sum, rebind each
measured key to the singleton for its outcome bit, then rebind the keys
collected before each measured index to the resultant state. -/
def measureHelper (invSqrt : R → R) (qm : QM R) (caches : Caches R) (state : Vec R)
    (indices : List ℕ) (all_keys : List String) (samp : R) :
    List (String × ℕ) × QM R × Caches R :=
  let key : KeyT R := (state, indices)
  let rc := withCache caches.measCache (measComp invSqrt) key
  let caches1 := { caches with measCache := rc.2 }
  let res := selectRes rc.1.1 samp
  let qmOut := indices.enum.foldl (measAssign res indices.length all_keys) (qm, [])
  let nmk := noMeasureKeys indices all_keys
  let qmFinal := if nmk.isEmpty then qmOut.1
    else qmSetC qmOut.1 nmk (rc.1.2.getD res [])
  (qmOut.2, qmFinal, caches1)

/-- The gate loop of `run_circuit`. -/
def runGates (hc : R) (caches : Caches R) (gates : List (String × List ℕ)) (state : Vec R) :
    Except String (Vec R × Caches R) :=
  gates.foldlM (fun acc g => applyWrapper hc acc.2 acc.1 g.1 g.2) (state, caches)

/-- Model of `QuantumManager::run_circuit(circuit, keys, meas_samp)`.  The
`State` constructor asserts its key list nonempty, so the no-measurement
re-`set` with an empty `all_keys` is modelled as a failure. -/
def runCircuit (hc : R) (invSqrt : R → R) (qm : QM R) (caches : Caches R)
    (circuit : Circuit) (keys : List String) (meas_samp : R) :
    Except String (List (String × ℕ) × QM R × Caches R) :=
  match prepareState qm keys with
  | .error e => .error e
  | .ok (state0, all_keys) =>
    match runGates hc caches circuit.gates state0 with
    | .error e => .error e
    | .ok (state, caches1) =>
      if circuit.measured.isEmpty then
        if all_keys.isEmpty then .error "assert: State keys empty"
        else .ok ([], qmSetC qm all_keys state, caches1)
      else
        .ok (measureHelper invSqrt qm caches1 state circuit.measured all_keys meas_samp)

/-! ### Operation sequences over the manager -/

/-- The public operations of the quantum manager. -/
inductive Op (R : Type) where
  | setRaw : List String → List R → Op R
  | setC : List String → Vec R → Op R
  | getK : String → Op R
  | run : Circuit → List String → R → Op R

/-- One operation step (the `State` constructor assert guards empty key
lists on the two `set` overloads). -/
def stepOp (hc : R) (invSqrt : R → R) (st : QM R × Caches R) :
    Op R → Except String (QM R × Caches R)
  | .setRaw ks amps =>
    if ks.isEmpty then .error "assert: State keys empty"
    else .ok (qmSetRaw st.1 ks amps, st.2)
  | .setC ks amps =>
    if ks.isEmpty then .error "assert: State keys empty"
    else .ok (qmSetC st.1 ks amps, st.2)
  | .getK k => .ok ((getOp st.1 k).2, st.2)
  | .run c keys samp =>
    (runCircuit hc invSqrt st.1 st.2 c keys samp).map (fun r => r.2)

def execOps (hc : R) (invSqrt : R → R) (st : QM R × Caches R) (ops : List (Op R)) :
    Except String (QM R × Caches R) :=
  ops.foldlM (stepOp hc invSqrt) st

deriving instance DecidableEq for Except

/-! ### Helper lemmas for the bindings and heap maps -/

theorem lookup_upsertB (b : List (String × Option ℕ)) (k : String) (v : Option ℕ)
    (k' : String) :
    (upsertB b k v).lookup k' = if k' = k then some v else b.lookup k' := by
  induction b with
  | nil =>
    show List.lookup k' [(k, v)] = _
    by_cases h : k' = k
    · have hb : (k' == k) = true := by simp [h]
      simp [List.lookup, hb, h]
    · have hb : (k' == k) = false := by simp [h]
      simp [List.lookup, hb, h]
  | cons hd tl ih =>
    obtain ⟨k1, v1⟩ := hd
    show List.lookup k' (if k1 = k then (k, v) :: tl else (k1, v1) :: upsertB tl k v) = _
    by_cases h1 : k1 = k
    · subst h1
      rw [if_pos rfl]
      by_cases h2 : k' = k1
      · have hb : (k' == k1) = true := by simp [h2]
        simp [List.lookup, hb, h2]
      · have hb : (k' == k1) = false := by simp [h2]
        simp [List.lookup, hb, h2]
    · rw [if_neg h1]
      by_cases h2 : k' = k1
      · subst h2
        have h3 : ¬ (k' = k) := fun hh => h1 hh
        have hb : (k' == k') = true := by simp
        simp [List.lookup, hb, h3]
      · have hb : (k' == k1) = false := by simp [h2]
        simp only [List.lookup, hb]
        rw [ih]

theorem lookup_foldl_upsert (ks : List String) (b : List (String × Option ℕ))
    (v : Option ℕ) (k' : String) :
    (ks.foldl (fun b k => upsertB b k v) b).lookup k' =
      if k' ∈ ks then some v else b.lookup k' := by
  induction ks generalizing b with
  | nil => simp
  | cons hd tl ih =>
    simp only [List.foldl_cons]
    rw [ih (upsertB b hd v), lookup_upsertB]
    by_cases h1 : k' ∈ tl
    · simp [h1]
    · by_cases h2 : k' = hd
      · simp [h1, h2]
      · simp [h1, h2]

theorem lookupB_qmSetC (qm : QM R) (ks : List String) (amps : Vec R) (k' : String) :
    lookupB (qmSetC qm ks amps) k' =
      if k' ∈ ks then some (some qm.fresh) else lookupB qm k' := by
  simp only [lookupB, qmSetC]
  exact lookup_foldl_upsert ks qm.bindings (some qm.fresh) k'

theorem heapAt_qmSetC_fresh (qm : QM R) (ks : List String) (amps : Vec R) :
    heapAt (qmSetC qm ks amps) qm.fresh = some ⟨ks, amps⟩ := by
  simp [heapAt, qmSetC, List.lookup]

theorem heapAt_qmSetC_ne (qm : QM R) (ks : List String) (amps : Vec R) (oid : ℕ)
    (hne : oid ≠ qm.fresh) :
    heapAt (qmSetC qm ks amps) oid = heapAt qm oid := by
  have hb : (oid == qm.fresh) = false := by simp [hne]
  simp [heapAt, qmSetC, List.lookup, hb]

/-! ### The key/state invariant (claim C3) -/

/-- Every key bound to a (non-null) state object resolves to exactly one
object, and that object's key list contains the key. -/
def KeyInv (qm : QM R) : Prop :=
  ∀ k oid, lookupB qm k = some (some oid) → ∃ S, heapAt qm oid = some S ∧ k ∈ S.keys

/-- All bound object identifiers are below the allocation counter. -/
def IdsBelow (qm : QM R) : Prop :=
  ∀ k oid, lookupB qm k = some (some oid) → oid < qm.fresh

def QMInv (qm : QM R) : Prop := KeyInv qm ∧ IdsBelow qm

theorem qmInv_empty : QMInv (emptyQM (R := R)) := by
  constructor <;> intro k oid h <;> simp [lookupB, emptyQM, List.lookup] at h

theorem qmInv_qmSetC (qm : QM R) (ks : List String) (amps : Vec R)
    (h : QMInv qm) : QMInv (qmSetC qm ks amps) := by
  obtain ⟨hkey, hids⟩ := h
  constructor
  · intro k oid hb
    rw [lookupB_qmSetC] at hb
    by_cases hk : k ∈ ks
    · rw [if_pos hk] at hb
      have hfe : qm.fresh = oid := by
        injection hb with hb1
        injection hb1
      subst hfe
      exact ⟨⟨ks, amps⟩, heapAt_qmSetC_fresh qm ks amps, hk⟩
    · rw [if_neg hk] at hb
      obtain ⟨S, hS, hmem⟩ := hkey k oid hb
      have hlt := hids k oid hb
      refine ⟨S, ?_, hmem⟩
      rw [heapAt_qmSetC_ne qm ks amps oid (by omega)]
      exact hS
  · intro k oid hb
    rw [lookupB_qmSetC] at hb
    show oid < qm.fresh + 1
    by_cases hk : k ∈ ks
    · rw [if_pos hk] at hb
      have hfe : qm.fresh = oid := by
        injection hb with hb1
        injection hb1
      omega
    · rw [if_neg hk] at hb
      have := hids k oid hb
      omega

theorem lookup_append_none (b : List (String × Option ℕ)) (k k' : String) (oid : ℕ)
    (h : (b ++ [(k, none)]).lookup k' = some (some oid)) :
    b.lookup k' = some (some oid) := by
  induction b with
  | nil =>
    simp only [List.nil_append, List.lookup] at h
    by_cases hk : k' = k
    · have hb : (k' == k) = true := by simp [hk]
      rw [hb] at h
      simp at h
    · have hb : (k' == k) = false := by simp [hk]
      rw [hb] at h
      simp [List.lookup] at h
  | cons hd tl ih =>
    obtain ⟨k1, v1⟩ := hd
    simp only [List.cons_append, List.lookup] at h ⊢
    by_cases hk : k' = k1
    · have hb : (k' == k1) = true := by simp [hk]
      rw [hb] at h ⊢
      exact h
    · have hb : (k' == k1) = false := by simp [hk]
      rw [hb] at h ⊢
      exact ih h

theorem qmInv_getOp (qm : QM R) (k : String) (h : QMInv qm) : QMInv (getOp qm k).2 := by
  obtain ⟨hkey, hids⟩ := h
  unfold getOp
  cases hb : lookupB qm k with
  | none =>
    simp only
    constructor
    · intro k' oid hb'
      simp only [lookupB] at hb'
      have := lookup_append_none qm.bindings k k' oid hb'
      obtain ⟨S, hS, hmem⟩ := hkey k' oid this
      exact ⟨S, hS, hmem⟩
    · intro k' oid hb'
      simp only [lookupB] at hb'
      exact hids k' oid (lookup_append_none qm.bindings k k' oid hb')
  | some o =>
    cases o with
    | none => exact ⟨hkey, hids⟩
    | some oid => exact ⟨hkey, hids⟩

theorem foldl_preserve {α β : Type} (P : α → Prop) (f : α → β → α) (l : List β)
    (h : ∀ a b, P a → P (f a b)) : ∀ a, P a → P (l.foldl f a) := by
  induction l with
  | nil => intro a ha; exact ha
  | cons hd tl ih => intro a ha; exact ih _ (h a hd ha)

theorem qmInv_measAssign_fold (res m : ℕ) (all_keys : List String)
    (indices : List ℕ) (qm : QM R) (out0 : List (String × ℕ)) (h : QMInv qm) :
    QMInv (indices.enum.foldl (measAssign res m all_keys) (qm, out0)).1 := by
  apply foldl_preserve (fun acc : QM R × List (String × ℕ) => QMInv acc.1)
  · intro a b ha
    exact qmInv_qmSetC _ _ _ ha
  · exact h

theorem qmInv_measureHelper (invSqrt : R → R) (qm : QM R) (caches : Caches R)
    (state : Vec R) (indices : List ℕ) (all_keys : List String) (samp : R)
    (h : QMInv qm) :
    QMInv (measureHelper invSqrt qm caches state indices all_keys samp).2.1 := by
  show QMInv (let rc := withCache caches.measCache (measComp invSqrt) (state, indices)
    let res := selectRes rc.1.1 samp
    let qmOut := indices.enum.foldl (measAssign res indices.length all_keys) (qm, [])
    let nmk := noMeasureKeys indices all_keys
    if nmk.isEmpty then qmOut.1 else qmSetC qmOut.1 nmk (rc.1.2.getD res []))
  have hout := qmInv_measAssign_fold
    (selectRes (withCache caches.measCache (measComp invSqrt) (state, indices)).1.1 samp)
    indices.length all_keys indices qm [] h
  by_cases hnm : (noMeasureKeys indices all_keys).isEmpty
  · simp only [hnm, if_true]
    exact hout
  · simp only [hnm, if_false]
    exact qmInv_qmSetC _ _ _ hout

theorem qmInv_runCircuit (hc : R) (invSqrt : R → R) (qm : QM R) (caches : Caches R)
    (circuit : Circuit) (keys : List String) (samp : R)
    (r : List (String × ℕ) × QM R × Caches R)
    (hrun : runCircuit hc invSqrt qm caches circuit keys samp = .ok r)
    (h : QMInv qm) : QMInv r.2.1 := by
  unfold runCircuit at hrun
  cases hprep : prepareState qm keys with
  | error e =>
    simp only [hprep] at hrun
    injection hrun
  | ok pr =>
    obtain ⟨state0, all_keys⟩ := pr
    simp only [hprep] at hrun
    cases hg : runGates hc caches circuit.gates state0 with
    | error e =>
      simp only [hg] at hrun
      injection hrun
    | ok sc =>
      obtain ⟨state, caches1⟩ := sc
      simp only [hg] at hrun
      by_cases hme : circuit.measured.isEmpty
      · rw [if_pos hme] at hrun
        by_cases hak : all_keys.isEmpty
        · rw [if_pos hak] at hrun
          exact absurd hrun (by simp)
        · rw [if_neg hak] at hrun
          injection hrun with hr
          subst hr
          exact qmInv_qmSetC _ _ _ h
      · rw [if_neg hme] at hrun
        injection hrun with hr
        subst hr
        exact qmInv_measureHelper _ _ _ _ _ _ _ h

theorem stepOp_inv (hc : R) (invSqrt : R → R) (st st' : QM R × Caches R) (op : Op R)
    (hstep : stepOp hc invSqrt st op = .ok st') (h : QMInv st.1) : QMInv st'.1 := by
  cases op with
  | setRaw ks amps =>
    simp only [stepOp] at hstep
    by_cases he : ks.isEmpty
    · rw [if_pos he] at hstep
      exact absurd hstep (by simp)
    · rw [if_neg he] at hstep
      injection hstep with hr
      subst hr
      exact qmInv_qmSetC _ _ _ h
  | setC ks amps =>
    simp only [stepOp] at hstep
    by_cases he : ks.isEmpty
    · rw [if_pos he] at hstep
      exact absurd hstep (by simp)
    · rw [if_neg he] at hstep
      injection hstep with hr
      subst hr
      exact qmInv_qmSetC _ _ _ h
  | getK k =>
    simp only [stepOp] at hstep
    injection hstep with hr
    subst hr
    exact qmInv_getOp _ _ h
  | run c keys samp =>
    simp only [stepOp] at hstep
    cases hrun : runCircuit hc invSqrt st.1 st.2 c keys samp with
    | error e =>
      simp only [hrun, Except.map] at hstep
      injection hstep
    | ok r =>
      simp only [hrun, Except.map] at hstep
      injection hstep with hr
      subst hr
      exact qmInv_runCircuit _ _ _ _ _ _ _ _ hrun h

theorem execOps_inv (hc : R) (invSqrt : R → R) :
    ∀ (ops : List (Op R)) (st st' : QM R × Caches R),
      QMInv st.1 → execOps hc invSqrt st ops = .ok st' → QMInv st'.1 := by
  intro ops
  induction ops with
  | nil =>
    intro st st' h hex
    simp only [execOps, List.foldlM] at hex
    injection hex with hr
    subst hr
    exact h
  | cons op rest ih =>
    intro st st' h hex
    simp only [execOps, List.foldlM] at hex
    cases hstep : stepOp hc invSqrt st op with
    | error e =>
      simp only [hstep, Except.bind] at hex
      injection hex
    | ok st1 =>
      simp only [hstep, Except.bind] at hex
      exact ih st1 st' (stepOp_inv hc invSqrt st st1 op hstep h) hex

/-! ### Bounds for the outcome-selection loop (claim C10) -/

theorem selectAux_le_length (samp : R) :
    ∀ (probs : List R) (cum : R), selectAux samp cum probs ≤ probs.length := by
  intro probs
  induction probs with
  | nil => intro cum; simp [selectAux]
  | cons p rest ih =>
    intro cum
    simp only [selectAux, List.length_cons]
    by_cases h : samp < cum + p
    · rw [if_pos h]; omega
    · rw [if_neg h]
      have := ih (cum + p)
      omega

theorem selectAux_lt_length (samp : R) :
    ∀ (probs : List R) (cum : R), cum ≤ samp → samp < cum + probs.sum →
      selectAux samp cum probs < probs.length := by
  intro probs
  induction probs with
  | nil =>
    intro cum hle hlt
    rw [List.sum_nil, add_zero] at hlt
    exact absurd hlt (not_lt.mpr hle)
  | cons p rest ih =>
    intro cum hle hlt
    simp only [selectAux, List.length_cons]
    by_cases h : samp < cum + p
    · rw [if_pos h]; omega
    · rw [if_neg h]
      have h1 : cum + p ≤ samp := not_lt.mp h
      have h2 : samp < cum + p + rest.sum := by
        rw [List.sum_cons] at hlt
        calc samp < cum + (p + rest.sum) := hlt
        _ = cum + p + rest.sum := by ring
      have := ih (cum + p) h1 h2
      omega

/-! ### Concrete instantiations used by witnesses and counterexamples
(scalars `ℤ`, the 1/√ parameter instantiated by the identity — the theorems
hold for every choice of these parameters). -/

def invSqrtZ : ℤ → ℤ := fun x => x

/-- A manager holding the joint state |10⟩ over keys `a`, `b`. -/
def qmAB : QM ℤ := qmSetRaw emptyQM ["a", "b"] [0, 0, 0, 0, 1, 0, 0, 0]

/-- The manager `qmAB` after `set({"a"}, ...)` over the proper subset `{a}` of the
co-owners. -/
def qmAB1 : QM ℤ := qmSetRaw qmAB ["a"] [1, 0, 0, 0]

/-- The operation sequence producing `qmAB1`. -/
def opsSubsetSet : List (Op ℤ) :=
  [.setRaw ["a", "b"] [0, 0, 0, 0, 1, 0, 0, 0], .setRaw ["a"] [1, 0, 0, 0]]

/-! ### Claim theorems -/

/-- C10 (amended): the cumulative-sum outcome-selection loop always stops at
an index at most the number of outcomes, and stops strictly inside the list
whenever the sample is below the total probability mass (in particular for
any normalised probability list, since the sample is below 1); it is not in
bounds for every sub-normalised list, see the counterexample. -/
theorem c10_outcome_selection_bounds (probs : List R) (samp : R) :
    selectRes probs samp ≤ probs.length ∧
    (0 ≤ samp → samp < probs.sum → selectRes probs samp < probs.length) := by
  constructor
  · exact selectAux_le_length samp probs 0
  · intro h0 hs
    exact selectAux_lt_length samp probs 0 h0 (by rwa [zero_add])

theorem c10_outcome_selection_bounds_witness :
    (0 : ℤ) ≤ 0 ∧ (0 : ℤ) < List.sum [1] ∧
    (selectRes ([1] : List ℤ) 0 ≤ ([1] : List ℤ).length ∧
      (0 ≤ (0 : ℤ) → (0 : ℤ) < List.sum [1] →
        selectRes ([1] : List ℤ) 0 < ([1] : List ℤ).length)) :=
  ⟨by decide, by decide, c10_outcome_selection_bounds [1] 0⟩

/-- C10 counterexample: for the all-zero (sub-normalised) state, the
probability list produced for the measured qubit is `[0, 0]`; with sample
`0 ∈ [0,1)` the loop falls off the end with `res = 2`, which is not strictly
less than the number of outcomes, so the subsequent indexing is out of
bounds. -/
theorem c10_selection_falloff_cex :
    probsOf (R := ℤ) [⟨0, 0⟩, ⟨0, 0⟩] [0] = [0, 0] ∧
    (0 : ℤ) ≤ 0 ∧ (0 : ℤ) < 1 ∧
    List.sum (probsOf (R := ℤ) [⟨0, 0⟩, ⟨0, 0⟩] [0]) < 1 ∧
    selectRes (probsOf (R := ℤ) [⟨0, 0⟩, ⟨0, 0⟩] [0]) 0 = 2 ∧
    ¬ selectRes (probsOf (R := ℤ) [⟨0, 0⟩, ⟨0, 0⟩] [0]) 0 <
        (probsOf (R := ℤ) [⟨0, 0⟩, ⟨0, 0⟩] [0]).length := by decide

/-- C6: `QuantumManager::get` on an unregistered key does not fail with an
unknown-state error; `states[key]` default-inserts a null `State*` under the
key (mutating the map while holding only a shared lock) and returns that null
pointer, which `prepare_state` then dereferences.  Evaluated at the failing
input: an empty manager queried for `"m1"`. -/
theorem c6_get_unknown_inserts_null :
    (getOp (emptyQM (R := ℤ)) "m1").1 = none ∧
    (getOp (emptyQM (R := ℤ)) "m1").2.bindings = [("m1", none)] ∧
    (emptyQM (R := ℤ)).bindings = [] ∧
    (getOp (emptyQM (R := ℤ)) "m1").2 ≠ emptyQM := by decide

/-- C2 (amended): after `set(ks, amplitudes)` with a non-empty key list,
every key of `ks` is bound to the one freshly allocated state whose amplitude
vector is the complex conversion of `amplitudes` and whose key list is `ks`;
every key outside `ks` — including keys that previously shared a state with a
member of `ks` — keeps its previous binding (it is NOT unbound). -/
theorem c2_set_rebinds (qm : QM R) (ks : List String) (amps : List R)
    (_hne : ks ≠ []) :
    (∀ k ∈ ks, lookupB (qmSetRaw qm ks amps) k = some (some qm.fresh)) ∧
    heapAt (qmSetRaw qm ks amps) qm.fresh = some ⟨ks, pairUp amps⟩ ∧
    (∀ k', k' ∉ ks → lookupB (qmSetRaw qm ks amps) k' = lookupB qm k') := by
  refine ⟨?_, heapAt_qmSetC_fresh qm ks (pairUp amps), ?_⟩
  · intro k hk
    show lookupB (qmSetC qm ks (pairUp amps)) k = some (some qm.fresh)
    rw [lookupB_qmSetC, if_pos hk]
  · intro k' hk'
    show lookupB (qmSetC qm ks (pairUp amps)) k' = lookupB qm k'
    rw [lookupB_qmSetC, if_neg hk']

theorem c2_set_rebinds_witness :
    ((["a"] : List String) ≠ []) ∧
    ((∀ k ∈ (["a"] : List String),
        lookupB (qmSetRaw qmAB ["a"] [1, 0, 0, 0]) k = some (some qmAB.fresh)) ∧
      heapAt (qmSetRaw qmAB ["a"] [1, 0, 0, 0]) qmAB.fresh =
        some ⟨["a"], pairUp [1, 0, 0, 0]⟩ ∧
      (∀ k', k' ∉ (["a"] : List String) →
        lookupB (qmSetRaw qmAB ["a"] [1, 0, 0, 0]) k' = lookupB qmAB k')) :=
  ⟨by decide, c2_set_rebinds qmAB ["a"] [1, 0, 0, 0] (by decide)⟩

/-- C2 counterexample: `set({a,b}, |10⟩)` then `set({a}, |0⟩)`.  The claim
says `b` (which previously shared a state with `a`) is no longer bound to
any state; in fact `b` is still bound to the old state object, which still
lists `{a, b}`. -/
theorem c2_prior_key_still_bound_cex :
    lookupB qmAB1 "b" = some (some 0) ∧
    boundState qmAB1 "b" =
      some ⟨["a", "b"], [⟨0, 0⟩, ⟨0, 0⟩, ⟨1, 0⟩, ⟨0, 0⟩]⟩ ∧
    ("b" ∉ (["a"] : List String)) ∧
    lookupB qmAB1 "b" ≠ none := by decide

/-- C3 (amended): after every successful sequence of quantum-manager
operations from the empty manager, every key bound to a non-null state object
resolves to exactly one object whose key list contains the key.  The converse
co-ownership direction of the claim — every key listed in a state is bound to
that state — fails (see the counterexample): a `set` over a proper subset of
a state's co-owners leaves the remaining co-owner bound to the stale object. -/
theorem c3_key_state_membership_invariant (hc : R) (invSqrt : R → R)
    (ops : List (Op R)) (st' : QM R × Caches R)
    (h : execOps hc invSqrt (emptyQM, emptyCaches) ops = .ok st') :
    KeyInv st'.1 :=
  (execOps_inv hc invSqrt ops (emptyQM, emptyCaches) st' qmInv_empty h).1

theorem c3_key_state_membership_invariant_witness :
    execOps (1 : ℤ) invSqrtZ (emptyQM, emptyCaches) opsSubsetSet =
      .ok (qmAB1, emptyCaches) ∧ KeyInv qmAB1 :=
  ⟨by decide,
    c3_key_state_membership_invariant (1 : ℤ) invSqrtZ opsSubsetSet
      (qmAB1, emptyCaches) (by decide)⟩

/-- C3 counterexample: after `set({a,b}, ·)` then `set({a}, ·)`, key `b` is
bound to state object 0, whose key list contains `a`, but `a` is bound to
object 1; so not every key listed in a joint state co-owns it. -/
theorem c3_coownership_cex :
    (execOps (1 : ℤ) invSqrtZ (emptyQM, emptyCaches) opsSubsetSet).map
        (fun st => (lookupB st.1 "b", heapAt st.1 0, lookupB st.1 "a")) =
      .ok (some (some 0),
        some ⟨["a", "b"], [⟨0, 0⟩, ⟨0, 0⟩, ⟨1, 0⟩, ⟨0, 0⟩]⟩,
        some (some 1)) ∧
    "a" ∈ (["a", "b"] : List String) ∧
    (some (some 1) : Option (Option ℕ)) ≠ some (some 0) := by decide

/-! ### Cache coherence (claim C5) -/

/-- A cache is coherent with a compute function when every stored entry is
the function's value at its key (which holds for every reachable cache state,
since only computed values are ever `put`). -/
def Coh {K V : Type} (c : LRUCache K V) (f : K → V) : Prop :=
  ∀ k v, (k, v) ∈ c.cache → v = f k

theorem mem_of_lookup {K V : Type} [DecidableEq K] (l : List (K × V)) (k : K) (v : V)
    (h : l.lookup k = some v) : (k, v) ∈ l := by
  induction l with
  | nil => simp [List.lookup] at h
  | cons hd tl ih =>
    obtain ⟨k1, v1⟩ := hd
    simp only [List.lookup] at h
    by_cases hk : k = k1
    · have hb : (k == k1) = true := by simp [hk]
      rw [hb] at h
      injection h with h1
      subst hk
      subst h1
      exact List.mem_cons_self _ _
    · have hb : (k == k1) = false := by simp [hk]
      rw [hb] at h
      exact List.mem_cons_of_mem _ (ih h)

theorem withCache_fst {K V : Type} [DecidableEq K] (c : LRUCache K V) (f : K → V)
    (k : K) (h : Coh c f) : (withCache c f k).1 = f k := by
  unfold withCache
  by_cases ha : k ∈ c.cacheAux
  · rw [if_pos ha]
    cases hl : c.cache.lookup k with
    | none => simp
    | some v => simp [h k v (mem_of_lookup _ _ _ hl)]
  · rw [if_neg ha]

theorem mem_upsertA {K V : Type} [DecidableEq K] (l : List (K × V)) (k : K) (v : V)
    (k' : K) (v' : V) (h : (k', v') ∈ upsertA l k v) :
    (k' = k ∧ v' = v) ∨ (k', v') ∈ l := by
  induction l with
  | nil =>
    simp only [upsertA, List.mem_singleton] at h
    injection h with h1 h2
    exact Or.inl ⟨h1, h2⟩
  | cons hd tl ih =>
    obtain ⟨k1, v1⟩ := hd
    simp only [upsertA] at h
    by_cases h1 : k1 = k
    · rw [if_pos h1] at h
      rcases List.mem_cons.mp h with he | hm
      · left
        injection he with he1 he2
        exact ⟨he1, he2⟩
      · right
        exact List.mem_cons_of_mem _ hm
    · rw [if_neg h1] at h
      rcases List.mem_cons.mp h with he | hm
      · right
        rw [he]
        exact List.mem_cons_self _ _
      · rcases ih hm with hl | hr
        · left; exact hl
        · right; exact List.mem_cons_of_mem _ hr

theorem coh_evict {K V : Type} [DecidableEq K] (c : LRUCache K V) (f : K → V)
    (h : Coh c f) : Coh c.evictIfFull f := by
  intro k v hm
  apply h k v
  unfold LRUCache.evictIfFull at hm
  by_cases hfull : c.keyList.length = c.size
  · rw [if_pos hfull] at hm
    cases hlast : c.keyList.getLast? with
    | none => rw [hlast] at hm; exact hm
    | some old =>
      rw [hlast] at hm
      simp only at hm
      exact List.mem_of_mem_filter hm
  · rw [if_neg hfull] at hm
    exact hm

theorem coh_allocate {K V : Type} [DecidableEq K] (c : LRUCache K V) (f : K → V)
    (k : K) (h : Coh c f) : Coh (c.allocate k) f := by
  intro k' v' hm
  exact coh_evict c f h k' v' hm

theorem coh_put {K V : Type} [DecidableEq K] (c : LRUCache K V) (f : K → V)
    (k : K) (h : Coh c f) : Coh (c.put k (f k)) f := by
  intro k' v' hm
  unfold LRUCache.put at hm
  simp only at hm
  rcases mem_upsertA _ _ _ _ _ hm with ⟨rfl, rfl⟩ | hmem
  · rfl
  · by_cases ha : k ∈ c.cacheAux
    · rw [if_pos ha] at hmem
      exact h _ _ hmem
    · rw [if_neg ha] at hmem
      exact coh_allocate c f k h _ _ hmem

theorem coh_touch {K V : Type} [DecidableEq K] (c : LRUCache K V) (f : K → V)
    (k : K) (h : Coh c f) : Coh (c.touch k) f := h

theorem withCache_snd_coh {K V : Type} [DecidableEq K] (c : LRUCache K V) (f : K → V)
    (k : K) (h : Coh c f) : Coh (withCache c f k).2 f := by
  unfold withCache
  by_cases ha : k ∈ c.cacheAux
  · rw [if_pos ha]
    cases hl : c.cache.lookup k with
    | none => simpa using h
    | some v => simpa using coh_touch c f k h
  · rw [if_neg ha]
    simp only
    exact coh_put (c.allocate k) f k (coh_allocate c f k h)

/-- The uncached per-gate computation selected by the gate name (only applied
to members of `gateTable`). -/
def gateFresh (hc : R) (g : String) (k : KeyT R) : Vec R :=
  if g = "h" then hComp hc k
  else if g = "x" then xComp k
  else if g = "y" then yComp k
  else if g = "z" then zComp k
  else if g = "cx" then cxComp k
  else swapComp k

/-- Coherence of all seven global caches with their compute functions. -/
def CohCaches (hc : R) (invSqrt : R → R) (caches : Caches R) : Prop :=
  Coh caches.hCache (hComp hc) ∧ Coh caches.xCache xComp ∧
  Coh caches.yCache yComp ∧ Coh caches.zCache zComp ∧
  Coh caches.cxCache cxComp ∧ Coh caches.swapCache swapComp ∧
  Coh caches.measCache (measComp invSqrt)

/-- C5: with coherent caches — hit, wait, or miss — the gate-application
wrapper returns exactly the fresh per-gate computation for every registered
gate, and the measurement-cache lookup returns exactly the fresh measurement
computation; caching never changes the returned value. -/
theorem c5_cache_results_fresh (hc : R) (invSqrt : R → R) (caches : Caches R)
    (state : Vec R) (indices : List ℕ) (h : CohCaches hc invSqrt caches) :
    (∀ g ∈ gateTable, (applyWrapper hc caches state g indices).map Prod.fst =
      .ok (gateFresh hc g (state, indices))) ∧
    (withCache caches.measCache (measComp invSqrt) (state, indices)).1 =
      measComp invSqrt (state, indices) := by
  obtain ⟨h1, h2, h3, h4, h5, h6, h7⟩ := h
  constructor
  · intro g hg
    simp only [gateTable, List.mem_cons, List.mem_singleton, List.not_mem_nil, or_false] at hg
    rcases hg with rfl | rfl | rfl | rfl | rfl | rfl
    · simp [applyWrapper, gateFresh, Except.map, withCache_fst _ _ _ h1]
    · simp [applyWrapper, gateFresh, Except.map, withCache_fst _ _ _ h2]
    · simp [applyWrapper, gateFresh, Except.map, withCache_fst _ _ _ h3]
    · simp [applyWrapper, gateFresh, Except.map, withCache_fst _ _ _ h4]
    · simp [applyWrapper, gateFresh, Except.map, withCache_fst _ _ _ h5]
    · simp [applyWrapper, gateFresh, Except.map, withCache_fst _ _ _ h6]
  · exact withCache_fst _ _ _ h7

theorem c5_cache_results_fresh_witness :
    CohCaches (1 : ℤ) invSqrtZ emptyCaches ∧
    ((∀ g ∈ gateTable,
        (applyWrapper (1 : ℤ) emptyCaches [⟨1, 0⟩, ⟨0, 0⟩] g [0]).map Prod.fst =
          .ok (gateFresh 1 g ([⟨1, 0⟩, ⟨0, 0⟩], [0]))) ∧
      (withCache (emptyCaches (R := ℤ)).measCache (measComp invSqrtZ)
          ([⟨1, 0⟩, ⟨0, 0⟩], [0])).1 = measComp invSqrtZ ([⟨1, 0⟩, ⟨0, 0⟩], [0])) :=
  ⟨⟨fun k v h => absurd h (List.not_mem_nil _), fun k v h => absurd h (List.not_mem_nil _),
    fun k v h => absurd h (List.not_mem_nil _), fun k v h => absurd h (List.not_mem_nil _),
    fun k v h => absurd h (List.not_mem_nil _), fun k v h => absurd h (List.not_mem_nil _),
    fun k v h => absurd h (List.not_mem_nil _)⟩,
    c5_cache_results_fresh (1 : ℤ) invSqrtZ emptyCaches [⟨1, 0⟩, ⟨0, 0⟩] [0]
      ⟨fun k v h => absurd h (List.not_mem_nil _), fun k v h => absurd h (List.not_mem_nil _),
        fun k v h => absurd h (List.not_mem_nil _), fun k v h => absurd h (List.not_mem_nil _),
        fun k v h => absurd h (List.not_mem_nil _), fun k v h => absurd h (List.not_mem_nil _),
        fun k v h => absurd h (List.not_mem_nil _)⟩⟩

/-! ### Unknown-gate failure (claim C7) -/

theorem applyWrapper_not_table (hc : R) (caches : Caches R) (state : Vec R)
    (indices : List ℕ) (g : String) (hg : g ∉ gateTable) :
    applyWrapper hc caches state g indices = .error ("undefined gate " ++ g) := by
  simp only [gateTable, List.mem_cons, List.mem_singleton, List.not_mem_nil, or_false,
    not_or] at hg
  obtain ⟨n1, n2, n3, n4, n5, n6⟩ := hg
  simp [applyWrapper, n1, n2, n3, n4, n5, n6]

theorem applyWrapper_table_ok (hc : R) (caches : Caches R) (state : Vec R)
    (indices : List ℕ) (g : String) (hg : g ∈ gateTable) :
    ∃ out caches1, applyWrapper hc caches state g indices = .ok (out, caches1) := by
  simp only [gateTable, List.mem_cons, List.mem_singleton, List.not_mem_nil, or_false] at hg
  rcases hg with rfl | rfl | rfl | rfl | rfl | rfl
  · exact ⟨(withCache caches.hCache (hComp hc) (state, indices)).1,
      { caches with hCache := (withCache caches.hCache (hComp hc) (state, indices)).2 },
      by simp [applyWrapper]⟩
  · exact ⟨(withCache caches.xCache xComp (state, indices)).1,
      { caches with xCache := (withCache caches.xCache xComp (state, indices)).2 },
      by simp [applyWrapper]⟩
  · exact ⟨(withCache caches.yCache yComp (state, indices)).1,
      { caches with yCache := (withCache caches.yCache yComp (state, indices)).2 },
      by simp [applyWrapper]⟩
  · exact ⟨(withCache caches.zCache zComp (state, indices)).1,
      { caches with zCache := (withCache caches.zCache zComp (state, indices)).2 },
      by simp [applyWrapper]⟩
  · exact ⟨(withCache caches.cxCache cxComp (state, indices)).1,
      { caches with cxCache := (withCache caches.cxCache cxComp (state, indices)).2 },
      by simp [applyWrapper]⟩
  · exact ⟨(withCache caches.swapCache swapComp (state, indices)).1,
      { caches with swapCache := (withCache caches.swapCache swapComp (state, indices)).2 },
      by simp [applyWrapper]⟩

theorem runGates_first_bad (hc : R) (g : String) (gIdx : List ℕ)
    (post : List (String × List ℕ)) (hg : g ∉ gateTable) :
    ∀ (pre : List (String × List ℕ)) (caches : Caches R) (state : Vec R),
      (∀ p ∈ pre, p.1 ∈ gateTable) →
      runGates hc caches (pre ++ (g, gIdx) :: post) state =
        .error ("undefined gate " ++ g) := by
  intro pre
  induction pre with
  | nil =>
    intro caches state _
    simp only [List.nil_append, runGates, List.foldlM]
    rw [applyWrapper_not_table hc caches state gIdx g hg]
    rfl
  | cons p rest ih =>
    intro caches state hpre
    have hp : p.1 ∈ gateTable := hpre p (List.mem_cons_self _ _)
    obtain ⟨out, caches1, hok⟩ := applyWrapper_table_ok hc caches state p.2 p.1 hp
    simp only [List.cons_append, runGates, List.foldlM]
    rw [hok]
    exact ih caches1 out (fun q hq => hpre q (List.mem_cons_of_mem _ hq))

/-- C7: a gate whose name is outside the registered table
{h, x, y, z, cx, swap} makes `apply_wrapper` fail with the
"undefined gate" error; for every name inside the table the error branch is
never taken; and running a circuit fails exactly when the first
out-of-table gate is reached, at which point `run_circuit` returns no
outcome map. -/
theorem c7_unknown_gate_fails (hc : R) (invSqrt : R → R) (caches : Caches R)
    (state : Vec R) (indices : List ℕ) (g : String) (gIdx : List ℕ)
    (pre post : List (String × List ℕ)) (qm : QM R) (circuit : Circuit)
    (keys : List String) (samp : R) (pr : Vec R × List String)
    (hg : g ∉ gateTable) (hpre : ∀ p ∈ pre, p.1 ∈ gateTable)
    (hcirc : circuit.gates = pre ++ (g, gIdx) :: post)
    (hprep : prepareState qm keys = .ok pr) :
    applyWrapper hc caches state g indices = .error ("undefined gate " ++ g) ∧
    (∀ g' ∈ gateTable, ∃ out caches1,
      applyWrapper hc caches state g' indices = .ok (out, caches1)) ∧
    runGates hc caches (pre ++ (g, gIdx) :: post) state =
      .error ("undefined gate " ++ g) ∧
    runCircuit hc invSqrt qm caches circuit keys samp =
      .error ("undefined gate " ++ g) := by
  refine ⟨applyWrapper_not_table hc caches state indices g hg,
    fun g' hg' => applyWrapper_table_ok hc caches state indices g' hg',
    runGates_first_bad hc g gIdx post hg pre caches state hpre, ?_⟩
  unfold runCircuit
  rw [hprep]
  obtain ⟨state0, all_keys⟩ := pr
  simp only
  rw [hcirc, runGates_first_bad hc g gIdx post hg pre caches state0 hpre]

theorem c7_unknown_gate_fails_witness :
    (("t" : String) ∉ gateTable) ∧
    (∀ p ∈ ([("x", [0])] : List (String × List ℕ)), p.1 ∈ gateTable) ∧
    ((⟨1, [("x", [0]), ("t", [0])], []⟩ : Circuit).gates =
      [("x", [0])] ++ ("t", [0]) :: []) ∧
    (prepareState qmAB ["a"] =
      .ok ([⟨0, 0⟩, ⟨0, 0⟩, ⟨1, 0⟩, ⟨0, 0⟩], ["a", "b"])) ∧
    (applyWrapper (1 : ℤ) emptyCaches [⟨1, 0⟩, ⟨0, 0⟩] "t" [0] =
        .error ("undefined gate " ++ "t") ∧
      (∀ g' ∈ gateTable, ∃ out caches1,
        applyWrapper (1 : ℤ) emptyCaches [⟨1, 0⟩, ⟨0, 0⟩] g' [0] = .ok (out, caches1)) ∧
      runGates (1 : ℤ) emptyCaches ([("x", [0])] ++ ("t", [0]) :: [])
          [⟨1, 0⟩, ⟨0, 0⟩] = .error ("undefined gate " ++ "t") ∧
      runCircuit (1 : ℤ) invSqrtZ qmAB emptyCaches
          ⟨1, [("x", [0]), ("t", [0])], []⟩ ["a"] 0 =
        .error ("undefined gate " ++ "t")) :=
  ⟨by decide, by decide, by decide, by decide,
    c7_unknown_gate_fails (1 : ℤ) invSqrtZ emptyCaches [⟨1, 0⟩, ⟨0, 0⟩] [0] "t" [0]
      [("x", [0])] [] qmAB ⟨1, [("x", [0]), ("t", [0])], []⟩ ["a"] 0
      ([⟨0, 0⟩, ⟨0, 0⟩, ⟨1, 0⟩, ⟨0, 0⟩], ["a", "b"])
      (by decide) (by decide) (by decide) (by decide)⟩

/-! ### Exact involution of the X gate (claim C9) -/

theorem posBit_setPos_self (n i : ℕ) (b : Bool) (m : ℕ) (hi : i < n) :
    posBit n i (setPos n i b m) = b := by
  unfold setPos
  rw [posBit_mkIdx _ _ _ hi, if_pos rfl]

theorem posBit_setPos_other (n i p : ℕ) (b : Bool) (m : ℕ) (hp : p < n) (hne : p ≠ i) :
    posBit n p (setPos n i b m) = posBit n p m := by
  unfold setPos
  rw [posBit_mkIdx _ _ _ hp, if_neg hne]

theorem setPos_setPos (n i : ℕ) (b b' : Bool) (m : ℕ) (hi : i < n) :
    setPos n i b (setPos n i b' m) = setPos n i b m := by
  unfold setPos
  apply mkIdx_congr
  intro p hp
  by_cases hpi : p = i
  · rw [if_pos hpi, if_pos hpi]
  · rw [if_neg hpi, if_neg hpi, posBit_mkIdx _ _ _ hp, if_neg hpi]

theorem setPos_posBit_self (n i m : ℕ) (hm : m < 2 ^ n) :
    setPos n i (posBit n i m) m = m := by
  unfold setPos
  have hcong : mkIdx n (fun p => if p = i then posBit n i m else posBit n p m) =
      mkIdx n (fun p => posBit n p m) := by
    apply mkIdx_congr
    intro p hp
    by_cases hpi : p = i
    · rw [if_pos hpi, hpi]
    · rw [if_neg hpi]
  rw [hcong, mkIdx_posBit n m hm]

theorem setPos_lt (n i : ℕ) (b : Bool) (m : ℕ) : setPos n i b m < 2 ^ n :=
  mkIdx_lt n _

theorem length_applyGate1 (U : ℕ → ℕ → Cx R) (i : ℕ) (v : Vec R) :
    (applyGate1 U i v).length = v.length := by
  simp [applyGate1]

theorem applyGate1_getD (U : ℕ → ℕ → Cx R) (i : ℕ) (v : Vec R) (m : ℕ)
    (hm : m < v.length) :
    (applyGate1 U i v).getD m 0 =
      U (bitv (posBit (nQubits v.length) i m)) 0 *
        v.getD (setPos (nQubits v.length) i false m) 0 +
      U (bitv (posBit (nQubits v.length) i m)) 1 *
        v.getD (setPos (nQubits v.length) i true m) 0 := by
  have hlt : m < (applyGate1 U i v).length := by rwa [length_applyGate1]
  rw [List.getD_eq_getElem _ _ hlt]
  simp [applyGate1]

/-- The X-gate branch of `apply_wrapper` acts on the flat vector as the pure
bit-flip permutation (exact arithmetic: `0·a + 1·b = b`). -/
theorem applyGate1_X_flip (n : ℕ) (v : Vec R) (hv : v.length = 2 ^ n) (i : ℕ)
    (hi : i < n) (m : ℕ) (hm : m < v.length) :
    (applyGate1 Xmat i v).getD m 0 = v.getD (setPos n i (!posBit n i m) m) 0 := by
  have hn : nQubits v.length = n := by rw [hv]; exact nQubits_pow n
  rw [applyGate1_getD Xmat i v m hm, hn]
  cases hb : posBit n i m
  · simp [bitv, Xmat, cx_zero_mul, cx_one_mul, cx_zero_add, cx_add_zero]
  · simp [bitv, Xmat, cx_zero_mul, cx_one_mul, cx_zero_add, cx_add_zero]

theorem applyX_involutive (n : ℕ) (v : Vec R) (hv : v.length = 2 ^ n) (i : ℕ)
    (hi : i < n) : applyGate1 Xmat i (applyGate1 Xmat i v) = v := by
  have hlen1 : (applyGate1 Xmat i v).length = 2 ^ n := by
    rw [length_applyGate1, hv]
  have hlen2 : (applyGate1 Xmat i (applyGate1 Xmat i v)).length = v.length := by
    rw [length_applyGate1, length_applyGate1]
  apply List.ext_getElem hlen2
  intro m hm1 hm2
  have hm : m < v.length := hm2
  have hmn : m < 2 ^ n := by rwa [hv] at hm
  have hgd : (applyGate1 Xmat i (applyGate1 Xmat i v)).getD m 0 = v.getD m 0 := by
    rw [applyGate1_X_flip n (applyGate1 Xmat i v) hlen1 i hi m (by rwa [hlen1, ← hv])]
    rw [applyGate1_X_flip n v hv i hi (setPos n i (!posBit n i m) m)
      (by rw [hv]; exact setPos_lt n i _ m)]
    rw [posBit_setPos_self n i _ m hi, Bool.not_not,
      setPos_setPos n i _ _ m hi, setPos_posBit_self n i m hmn]
  rw [List.getD_eq_getElem _ _ hm1, List.getD_eq_getElem _ _ hm2] at hgd
  exact hgd

/-- C9: applying the X gate twice through the gate-application wrapper (with
a coherent cache, so hit and miss return the same value) gives back exactly
the original amplitude vector — in the exact-arithmetic model of the machine
floats, X application is a pure permutation and an exact involution. -/
theorem c9_x_twice_identity (hc : R) (caches : Caches R) (v : Vec R) (n i : ℕ)
    (hv : v.length = 2 ^ n) (hi : i < n) (hcoh : Coh caches.xCache xComp) :
    ∃ caches1 caches2,
      applyWrapper hc caches v "x" [i] = .ok (applyGate1 Xmat i v, caches1) ∧
      applyWrapper hc caches1 (applyGate1 Xmat i v) "x" [i] = .ok (v, caches2) := by
  have hval1 : (withCache caches.xCache xComp (v, [i])).1 = applyGate1 Xmat i v := by
    rw [withCache_fst _ _ _ hcoh]
    rfl
  refine ⟨{ caches with xCache := (withCache caches.xCache xComp (v, [i])).2 },
    { caches with xCache :=
        (withCache (withCache caches.xCache xComp (v, [i])).2 xComp
          (applyGate1 Xmat i v, [i])).2 }, ?_, ?_⟩
  · simp [applyWrapper, hval1]
  · have hcoh1 : Coh (withCache caches.xCache xComp (v, [i])).2 xComp :=
      withCache_snd_coh _ _ _ hcoh
    have hval2 : (withCache (withCache caches.xCache xComp (v, [i])).2 xComp
        (applyGate1 Xmat i v, [i])).1 = v := by
      rw [withCache_fst _ _ _ hcoh1]
      show applyGate1 Xmat i (applyGate1 Xmat i v) = v
      exact applyX_involutive n v hv i hi
    simp [applyWrapper, hval2]

theorem c9_x_twice_identity_witness :
    (([⟨0, 0⟩, ⟨1, 0⟩] : Vec ℤ).length = 2 ^ 1) ∧ (0 < 1) ∧
    (∃ caches1 caches2,
      applyWrapper (1 : ℤ) emptyCaches [⟨0, 0⟩, ⟨1, 0⟩] "x" [0] =
        .ok (applyGate1 Xmat 0 [⟨0, 0⟩, ⟨1, 0⟩], caches1) ∧
      applyWrapper (1 : ℤ) caches1 (applyGate1 Xmat 0 [⟨0, 0⟩, ⟨1, 0⟩]) "x" [0] =
        .ok ([⟨0, 0⟩, ⟨1, 0⟩], caches2)) :=
  ⟨by decide, by decide,
    c9_x_twice_identity (1 : ℤ) emptyCaches [⟨0, 0⟩, ⟨1, 0⟩] 1 0 (by decide) (by decide)
      (fun k v h => absurd h (List.not_mem_nil _))⟩

/-! ### Empty circuit over a bound key (claim C8) -/

/-- Applying `vector_kron` with the 0-qubit unit state on the left is the identity on
amplitude vectors (exact arithmetic). -/
theorem vector_kron_unit (s : Vec R) : vector_kron unitVec s = s := by
  have hlen : (vector_kron unitVec s).length = s.length := by
    simp [vector_kron, unitVec]
  apply List.ext_getElem hlen
  intro m hm1 hm2
  have hme : (vector_kron unitVec s)[m] =
      (unitVec (R := R)).getD (m / s.length) 0 * s.getD (m % s.length) 0 := by
    simp [vector_kron]
  rw [hme, Nat.div_eq_of_lt hm2, Nat.mod_eq_of_lt hm2]
  have hu : (unitVec (R := R)).getD 0 0 = 1 := rfl
  rw [hu, cx_one_mul, List.getD_eq_getElem _ _ hm2]

theorem kronAll_single (s : Vec R) : kronAll [s] = s := by
  show vector_kron unitVec s = s
  exact vector_kron_unit s

/-- Running `prepare_state` over a single bound key whose state lists it first:
the gathered joint state is the stored one, and the reorder loop does not
swap. -/
theorem prepareState_single (qm : QM R) (k : String) (S : StateObj R)
    (hb : boundState qm k = some S) (hhead : S.keys.getD 0 "" = k) :
    prepareState qm [k] = .ok (S.state, S.keys) := by
  have hgather : gatherStates qm [k] = .ok ([S.state], S.keys) := by
    show gatherAux qm [k] [] [] = .ok ([S.state], S.keys)
    simp [gatherAux, hb]
  unfold prepareState
  rw [hgather]
  show fixAll [k] (kronAll [S.state], S.keys) = .ok (S.state, S.keys)
  rw [kronAll_single]
  show (List.range 1).foldlM (fixStep [k]) (S.state, S.keys) = .ok (S.state, S.keys)
  have hr1 : List.range 1 = [0] := rfl
  rw [hr1]
  show fixStep [k] (S.state, S.keys) 0 >>= (fun x => pure x) = .ok (S.state, S.keys)
  have hfs : fixStep [k] (S.state, S.keys) 0 = .ok (S.state, S.keys) := by
    unfold fixStep
    simp only
    rw [if_pos]
    exact hhead
  rw [hfs]
  rfl

/-- C8 (amended): running a circuit with empty gate list and empty measured
set over a bound key whose state lists it first returns an empty outcome map
and rebinds all co-owners to a freshly allocated state object with the same
contents (amplitudes and key list) — the contents are preserved but the
object identity is new, and when the key is not the first key of its state
the contents are additionally permuted (see the counterexample). -/
theorem c8_empty_circuit_rebinds (hc : R) (invSqrt : R → R) (qm : QM R)
    (caches : Caches R) (k : String) (oid : ℕ) (S : StateObj R) (samp : R)
    (hb : lookupB qm k = some (some oid)) (hS : heapAt qm oid = some S)
    (hhead : S.keys.getD 0 "" = k) (hne : S.keys ≠ [])
    (hid : ∀ p ∈ qm.heap, p.1 < qm.fresh) :
    runCircuit hc invSqrt qm caches ⟨S.keys.length, [], []⟩ [k] samp =
      .ok ([], qmSetC qm S.keys S.state, caches) ∧
    (∀ k' ∈ S.keys, lookupB (qmSetC qm S.keys S.state) k' = some (some qm.fresh)) ∧
    heapAt (qmSetC qm S.keys S.state) qm.fresh = some ⟨S.keys, S.state⟩ ∧
    qm.fresh ≠ oid := by
  have hbound : boundState qm k = some S := by
    unfold boundState
    rw [hb]
    exact hS
  have hprep := prepareState_single qm k S hbound hhead
  refine ⟨?_, ?_, heapAt_qmSetC_fresh qm S.keys S.state, ?_⟩
  · unfold runCircuit
    rw [hprep]
    cases hsk : S.keys with
    | nil => exact absurd hsk hne
    | cons a rest => rfl
  · intro k' hk'
    rw [lookupB_qmSetC, if_pos hk']
  · have hmem := mem_of_lookup qm.heap oid S hS
    have := hid (oid, S) hmem
    omega

theorem c8_empty_circuit_rebinds_witness :
    (lookupB qmAB "a" = some (some 0) ∧
      heapAt qmAB 0 = some ⟨["a", "b"], [⟨0, 0⟩, ⟨0, 0⟩, ⟨1, 0⟩, ⟨0, 0⟩]⟩ ∧
      ((["a", "b"] : List String).getD 0 "" = "a") ∧
      ((["a", "b"] : List String) ≠ []) ∧
      (∀ p ∈ qmAB.heap, p.1 < qmAB.fresh)) ∧
    (runCircuit (1 : ℤ) invSqrtZ qmAB emptyCaches
        ⟨(["a", "b"] : List String).length, [], []⟩ ["a"] 0 =
      .ok ([], qmSetC qmAB ["a", "b"] [⟨0, 0⟩, ⟨0, 0⟩, ⟨1, 0⟩, ⟨0, 0⟩], emptyCaches) ∧
    (∀ k' ∈ (["a", "b"] : List String),
      lookupB (qmSetC qmAB ["a", "b"] [⟨0, 0⟩, ⟨0, 0⟩, ⟨1, 0⟩, ⟨0, 0⟩]) k' =
        some (some qmAB.fresh)) ∧
    heapAt (qmSetC qmAB ["a", "b"] [⟨0, 0⟩, ⟨0, 0⟩, ⟨1, 0⟩, ⟨0, 0⟩]) qmAB.fresh =
      some ⟨["a", "b"], [⟨0, 0⟩, ⟨0, 0⟩, ⟨1, 0⟩, ⟨0, 0⟩]⟩ ∧
    qmAB.fresh ≠ 0) :=
  ⟨⟨by decide, by decide, by decide, by decide, by decide⟩,
    c8_empty_circuit_rebinds (1 : ℤ) invSqrtZ qmAB emptyCaches "a" 0
      ⟨["a", "b"], [⟨0, 0⟩, ⟨0, 0⟩, ⟨1, 0⟩, ⟨0, 0⟩]⟩ 0
      (by decide) (by decide) (by decide) (by decide) (by decide)⟩

/-- C8 counterexample: the same empty circuit run over key `b` — the second
key of its joint state — is not a no-op even on contents: a fresh state
object is allocated (binding 0 becomes 1) and the stored key order and
amplitudes are permuted (`["b","a"]` with the swapped vector instead of
`["a","b"]` with the original). -/
theorem c8_not_noop_cex :
    runCircuit (1 : ℤ) invSqrtZ qmAB emptyCaches ⟨2, [], []⟩ ["b"] 0 =
      .ok ([], qmSetC qmAB ["b", "a"] [⟨0, 0⟩, ⟨1, 0⟩, ⟨0, 0⟩, ⟨0, 0⟩],
        emptyCaches) ∧
    lookupB qmAB "b" = some (some 0) ∧
    heapAt qmAB 0 = some ⟨["a", "b"], [⟨0, 0⟩, ⟨0, 0⟩, ⟨1, 0⟩, ⟨0, 0⟩]⟩ ∧
    lookupB (qmSetC qmAB ["b", "a"] [⟨0, 0⟩, ⟨1, 0⟩, ⟨0, 0⟩, ⟨0, 0⟩]) "b" =
      some (some 1) ∧
    heapAt (qmSetC qmAB ["b", "a"] [⟨0, 0⟩, ⟨1, 0⟩, ⟨0, 0⟩, ⟨0, 0⟩]) 1 =
      some ⟨["b", "a"], [⟨0, 0⟩, ⟨1, 0⟩, ⟨0, 0⟩, ⟨0, 0⟩]⟩ ∧
    (⟨["b", "a"], [⟨0, 0⟩, ⟨1, 0⟩, ⟨0, 0⟩, ⟨0, 0⟩]⟩ : StateObj ℤ) ≠
      ⟨["a", "b"], [⟨0, 0⟩, ⟨0, 0⟩, ⟨1, 0⟩, ⟨0, 0⟩]⟩ ∧
    (1 : ℕ) ≠ 0 := by decide

/-! ### Measurement leaves trailing unmeasured keys stale (claim C1) -/

/-- Manager holding the joint state |10⟩ over keys `4`, `5` — the last input
of the server test driver. -/
def qm45 : QM ℤ := qmSetRaw emptyQM ["4", "5"] [0, 0, 0, 0, 1, 0, 0, 0]

/-- C1 evaluated at the failing input: measuring qubit 0 of the joint state
|10⟩ over keys `4`, `5` (circuit over key `4`, sample 0).  The outcome map is
`{4 ↦ 1}` and key `4` is rebound to the |1⟩ singleton as the claim says, but
key `5` — an unmeasured key after the last measured index — is NOT rebound to
the collapsed remainder |0⟩: it stays bound to the stale pre-measurement
two-qubit state object, because the `no_measure_keys` collection loop never
walks past the last measured index. -/
theorem c1_trailing_unmeasured_stale :
    (runCircuit (1 : ℤ) invSqrtZ qm45 emptyCaches ⟨1, [], [0]⟩ ["4"] 0).map
        (fun r => (r.1, lookupB r.2.1 "4", heapAt r.2.1 1)) =
      .ok ([("4", 1)], some (some 1), some ⟨["4"], [⟨0, 0⟩, ⟨1, 0⟩]⟩) ∧
    (runCircuit (1 : ℤ) invSqrtZ qm45 emptyCaches ⟨1, [], [0]⟩ ["4"] 0).map
        (fun r => (lookupB r.2.1 "5", heapAt r.2.1 0)) =
      .ok (some (some 0), some ⟨["4", "5"], [⟨0, 0⟩, ⟨0, 0⟩, ⟨1, 0⟩, ⟨0, 0⟩]⟩) ∧
    noMeasureKeys [0] ["4", "5"] = [] := by decide

/-! ### Semantics of `prepare_state`'s qubit reordering (claim C4)

A stored pair (amplitude vector, key list) is read through `ampAt`: the
amplitude assigned to a classical assignment `σ` of the keys is the vector
entry at the flat index whose qubit-`p` bit is `σ` of the `p`-th key.
"Stored key order consistent with stored amplitudes" means this reading is
preserved. -/

/-- Flat index of the basis state in which key `ks[p]` carries bit
`σ (ks[p])`. -/
def encode (σ : String → Bool) (ks : List String) : ℕ :=
  mkIdx ks.length (fun p => σ (ks.getD p ""))

/-- Amplitude of the classical assignment `σ` in the stored pair `(v, ks)`. -/
def ampAt (v : Vec R) (ks : List String) (σ : String → Bool) : Cx R :=
  v.getD (encode σ ks) 0

theorem getD_set_self {α : Type} (l : List α) (idx : ℕ) (x d : α)
    (h : idx < l.length) : (l.set idx x).getD idx d = x := by
  rw [List.getD_eq_getElem _ _ (by simpa using h)]
  exact List.getElem_set_eq _

theorem getD_set_other {α : Type} (l : List α) (idx p : ℕ) (x d : α)
    (h : p ≠ idx) : (l.set idx x).getD p d = l.getD p d := by
  by_cases hp : p < l.length
  · rw [List.getD_eq_getElem _ _ (by simpa using hp),
      List.getD_eq_getElem _ _ hp]
    exact List.getElem_set_ne (fun he => h he.symm) _
  · have h1 : l.length ≤ p := not_lt.mp hp
    rw [List.getD_eq_default _ _ (by simpa using h1), List.getD_eq_default _ _ h1]

theorem getD_mem (l : List String) (s : ℕ) (h : s < l.length) : l.getD s "" ∈ l := by
  rw [List.getD_eq_getElem _ _ h]
  exact List.getElem_mem h

theorem nodup_subset_length (keys ak0 : List String) (hnd : keys.Nodup)
    (hsub : ∀ x ∈ keys, x ∈ ak0) : keys.length ≤ ak0.length := by
  calc keys.length = keys.toFinset.card := (List.toFinset_card_of_nodup hnd).symm
  _ ≤ ak0.toFinset.card := by
      apply Finset.card_le_card
      intro x hx
      rw [List.mem_toFinset] at hx ⊢
      exact hsub x hx
  _ ≤ ak0.length := List.toFinset_card_le ak0

theorem length_applyGate2 (U : ℕ → ℕ → Cx R) (i j : ℕ) (v : Vec R) :
    (applyGate2 U i j v).length = v.length := by
  simp [applyGate2]

theorem applyGate2_getD (U : ℕ → ℕ → Cx R) (i j : ℕ) (v : Vec R) (m : ℕ)
    (hm : m < v.length) :
    (applyGate2 U i j v).getD m 0 =
      U (2 * bitv (posBit (nQubits v.length) i m) + bitv (posBit (nQubits v.length) j m)) 0 *
        v.getD (setPos (nQubits v.length) i false
          (setPos (nQubits v.length) j false m)) 0 +
      U (2 * bitv (posBit (nQubits v.length) i m) + bitv (posBit (nQubits v.length) j m)) 1 *
        v.getD (setPos (nQubits v.length) i false
          (setPos (nQubits v.length) j true m)) 0 +
      U (2 * bitv (posBit (nQubits v.length) i m) + bitv (posBit (nQubits v.length) j m)) 2 *
        v.getD (setPos (nQubits v.length) i true
          (setPos (nQubits v.length) j false m)) 0 +
      U (2 * bitv (posBit (nQubits v.length) i m) + bitv (posBit (nQubits v.length) j m)) 3 *
        v.getD (setPos (nQubits v.length) i true
          (setPos (nQubits v.length) j true m)) 0 := by
  have hlt : m < (applyGate2 U i j v).length := by rwa [length_applyGate2]
  rw [List.getD_eq_getElem _ _ hlt]
  simp [applyGate2]

/-- Writing bit `bj` at position `j` and bit `bi` at position `i` of `m`,
when those are exactly `m`'s bits at the other position, realises the bit
transposition `swapPos`. -/
theorem setPos_pair_eq_swapPos (n i j m : ℕ) (hi : i < n) (hj : j < n)
    (hij : i ≠ j) (bi bj : Bool) (hbi : posBit n i m = bi) (hbj : posBit n j m = bj) :
    setPos n i bj (setPos n j bi m) = swapPos n i j m := by
  show mkIdx n (fun p => if p = i then bj else posBit n p (setPos n j bi m)) =
    mkIdx n (fun p => if p = i then posBit n j m
      else if p = j then posBit n i m else posBit n p m)
  apply mkIdx_congr
  intro p hp
  by_cases hpi : p = i
  · rw [if_pos hpi, if_pos hpi, hbj]
  · rw [if_neg hpi, if_neg hpi]
    have hpb : posBit n p (setPos n j bi m) =
        if p = j then bi else posBit n p m := by
      unfold setPos
      rw [posBit_mkIdx _ _ _ hp]
    rw [hpb]
    by_cases hpj : p = j
    · rw [if_pos hpj, if_pos hpj, hbi]
    · rw [if_neg hpj, if_neg hpj]

/-- The generic 4×4 application of `gt.SWAP` acts on flat indices as the
bit transposition (exact arithmetic: three of the four matrix entries in each
row are 0 and one is 1). -/
theorem applyGate2_swap_getD (n : ℕ) (v : Vec R) (hv : v.length = 2 ^ n)
    (i j : ℕ) (hi : i < n) (hj : j < n) (hij : i ≠ j) (m : ℕ) (hm : m < 2 ^ n) :
    (applyGate2 SWAPmat i j v).getD m 0 = v.getD (swapPos n i j m) 0 := by
  have hn : nQubits v.length = n := by rw [hv]; exact nQubits_pow n
  rw [applyGate2_getD SWAPmat i j v m (by rwa [hv]), hn]
  cases hbi : posBit n i m <;> cases hbj : posBit n j m
  · have hidx := setPos_pair_eq_swapPos n i j m hi hj hij false false hbi hbj
    simp [bitv, SWAPmat, hidx, cx_zero_mul, cx_one_mul, cx_zero_add, cx_add_zero]
  · have hidx := setPos_pair_eq_swapPos n i j m hi hj hij false true hbi hbj
    simp [bitv, SWAPmat, hidx, cx_zero_mul, cx_one_mul, cx_zero_add, cx_add_zero]
  · have hidx := setPos_pair_eq_swapPos n i j m hi hj hij true false hbi hbj
    simp [bitv, SWAPmat, hidx, cx_zero_mul, cx_one_mul, cx_zero_add, cx_add_zero]
  · have hidx := setPos_pair_eq_swapPos n i j m hi hj hij true true hbi hbj
    simp [bitv, SWAPmat, hidx, cx_zero_mul, cx_one_mul, cx_zero_add, cx_add_zero]

/-- Transposing the two key entries transposes the corresponding bits of the
encoded flat index. -/
theorem encode_set_swap (σ : String → Bool) (ak : List String) (s j : ℕ)
    (hs : s < ak.length) (hj : j < ak.length) (hsj : s ≠ j) :
    encode σ ((ak.set j (ak.getD s "")).set s (ak.getD j "")) =
      swapPos ak.length s j (encode σ ak) := by
  have hlen : ((ak.set j (ak.getD s "")).set s (ak.getD j "")).length = ak.length := by
    simp
  unfold encode
  rw [hlen]
  have hswap : swapPos ak.length s j (mkIdx ak.length (fun p => σ (ak.getD p ""))) =
      mkIdx ak.length (fun p =>
        if p = s then σ (ak.getD j "") else if p = j then σ (ak.getD s "")
        else σ (ak.getD p "")) := by
    unfold swapPos
    apply mkIdx_congr
    intro p hp
    by_cases hps : p = s
    · rw [if_pos hps, if_pos hps, posBit_mkIdx _ _ _ hj]
    · rw [if_neg hps, if_neg hps]
      by_cases hpj : p = j
      · rw [if_pos hpj, if_pos hpj, posBit_mkIdx _ _ _ hs]
      · rw [if_neg hpj, if_neg hpj, posBit_mkIdx _ _ _ hp]
  rw [hswap]
  apply mkIdx_congr
  intro p hp
  by_cases hps : p = s
  · subst hps
    rw [if_pos rfl, getD_set_self _ _ _ _ (by simpa using hs)]
  · rw [if_neg hps, getD_set_other _ _ _ _ _ hps]
    by_cases hpj : p = j
    · subst hpj
      rw [if_pos rfl, getD_set_self _ _ _ _ hp]
    · rw [if_neg hpj, getD_set_other _ _ _ _ _ hpj]

/-- One reorder step — SWAP gate on the vector, transposition on the key
list — preserves the assignment semantics of the stored pair. -/
theorem ampAt_swap (v : Vec R) (ak : List String) (s j : ℕ)
    (hlen : v.length = 2 ^ ak.length) (hs : s < ak.length) (hj : j < ak.length)
    (hsj : s ≠ j) (σ : String → Bool) :
    ampAt (applyGate2 SWAPmat s j v)
        ((ak.set j (ak.getD s "")).set s (ak.getD j "")) σ =
      ampAt v ak σ := by
  unfold ampAt
  rw [encode_set_swap σ ak s j hs hj hsj]
  have he : encode σ ak < 2 ^ ak.length := mkIdx_lt _ _
  have hsw : swapPos ak.length s j (encode σ ak) < 2 ^ ak.length := mkIdx_lt _ _
  rw [applyGate2_swap_getD ak.length v hlen s j hs hj hsj _ hsw,
    swapPos_involutive ak.length s j (encode σ ak) hs hj he]

/-- Transposing two entries of a list preserves membership. -/
theorem mem_set_swap (l : List String) (s j : ℕ) (hs : s < l.length)
    (hj : j < l.length) (hsj : s ≠ j) (x : String) :
    (x ∈ (l.set j (l.getD s "")).set s (l.getD j "")) ↔ x ∈ l := by
  have hlen1 : ((l.set j (l.getD s "")).set s (l.getD j "")).length = l.length := by
    simp
  constructor
  · intro hx
    rw [List.mem_iff_getElem] at hx
    obtain ⟨p, hp, hpe⟩ := hx
    rw [hlen1] at hp
    have hgd : ((l.set j (l.getD s "")).set s (l.getD j "")).getD p "" = x := by
      rw [List.getD_eq_getElem _ _ (by rwa [hlen1])]
      exact hpe
    by_cases hps : p = s
    · rw [hps, getD_set_self _ _ _ _ (by simpa using hs)] at hgd
      rw [← hgd]
      exact getD_mem l j hj
    · rw [getD_set_other _ _ _ _ _ hps] at hgd
      by_cases hpj : p = j
      · rw [hpj, getD_set_self _ _ _ _ (by simpa using hj)] at hgd
        rw [← hgd]
        exact getD_mem l s hs
      · rw [getD_set_other _ _ _ _ _ hpj] at hgd
        rw [← hgd]
        exact getD_mem l p hp
  · intro hx
    rw [List.mem_iff_getElem] at hx
    obtain ⟨p, hp, hpe⟩ := hx
    have hgd : l.getD p "" = x := by
      rw [List.getD_eq_getElem _ _ hp]
      exact hpe
    by_cases hps : p = s
    · have hj2 : ((l.set j (l.getD s "")).set s (l.getD j "")).getD j "" = x := by
        rw [getD_set_other _ _ _ _ _ (fun he => hsj he.symm),
          getD_set_self _ _ _ _ (by simpa using hj)]
        rw [hps] at hgd
        exact hgd
      rw [← hj2]
      exact getD_mem _ j (by rwa [hlen1])
    · by_cases hpj : p = j
      · have hs2 : ((l.set j (l.getD s "")).set s (l.getD j "")).getD s "" = x := by
          rw [getD_set_self _ _ _ _ (by simpa using hs)]
          rw [hpj] at hgd
          exact hgd
        rw [← hs2]
        exact getD_mem _ s (by rwa [hlen1])
      · have hp2 : ((l.set j (l.getD s "")).set s (l.getD j "")).getD p "" = x := by
          rw [getD_set_other _ _ _ _ _ hps, getD_set_other _ _ _ _ _ hpj]
          exact hgd
        rw [← hp2]
        exact getD_mem _ p (by rwa [hlen1])

theorem length_vector_kron (u w : Vec R) :
    (vector_kron u w).length = u.length * w.length := by
  simp [vector_kron]

theorem kronAll_concat (sts : List (Vec R)) (s : Vec R) :
    kronAll (sts ++ [s]) = vector_kron (kronAll sts) s := by
  unfold kronAll
  rw [List.foldl_concat]

/-- A bound state object satisfies the heap well-formedness bound. -/
theorem boundState_wf (qm : QM R) (k : String) (S : StateObj R)
    (hwf : ∀ p ∈ qm.heap, p.2.state.length = 2 ^ p.2.keys.length)
    (hb : boundState qm k = some S) : S.state.length = 2 ^ S.keys.length := by
  unfold boundState at hb
  cases hl : lookupB qm k with
  | none => rw [hl] at hb; simp [Option.bind] at hb
  | some o =>
    rw [hl] at hb
    cases o with
    | none => simp [Option.bind] at hb
    | some oid =>
      simp only [Option.bind] at hb
      exact hwf (oid, S) (mem_of_lookup _ _ _ hb)

/-- The gathering loop succeeds on keys with well-formed bound states, and
its accumulated joint state has dimension `2^(number of gathered keys)`;
gathered keys only grow and every requested key ends up gathered. -/
theorem gatherAux_ok (qm : QM R)
    (hwf : ∀ p ∈ qm.heap, p.2.state.length = 2 ^ p.2.keys.length) :
    ∀ (ks : List String) (sts : List (Vec R)) (ak : List String),
      (∀ k ∈ ks, match boundState qm k with | some S => k ∈ S.keys | none => False) →
      (kronAll sts).length = 2 ^ ak.length →
      ∃ sts1 ak1, gatherAux qm ks sts ak = .ok (sts1, ak1) ∧
        (kronAll sts1).length = 2 ^ ak1.length ∧
        (∀ x ∈ ak, x ∈ ak1) ∧ (∀ k ∈ ks, k ∈ ak1) := by
  intro ks
  induction ks with
  | nil =>
    intro sts ak hb hlen
    exact ⟨sts, ak, rfl, hlen, fun x hx => hx, fun k hk => absurd hk (List.not_mem_nil k)⟩
  | cons k rest ih =>
    intro sts ak hb hlen
    have hbk := hb k (List.mem_cons_self _ _)
    by_cases hk : k ∈ ak
    · have hstep : gatherAux qm (k :: rest) sts ak = gatherAux qm rest sts ak := by
        simp [gatherAux, hk]
      obtain ⟨sts1, ak1, hok, hlen1, hmono, hall⟩ :=
        ih sts ak (fun k' hk' => hb k' (List.mem_cons_of_mem _ hk')) hlen
      refine ⟨sts1, ak1, by rw [hstep]; exact hok, hlen1, hmono, ?_⟩
      intro k' hk'
      rcases List.mem_cons.mp hk' with rfl | hk'r
      · exact hmono k' hk
      · exact hall k' hk'r
    · cases hbs : boundState qm k with
      | none => rw [hbs] at hbk; exact absurd hbk (by simp)
      | some S =>
        rw [hbs] at hbk
        have hstep : gatherAux qm (k :: rest) sts ak =
            gatherAux qm rest (sts ++ [S.state]) (ak ++ S.keys) := by
          simp [gatherAux, hk, hbs]
        have hlen2 : (kronAll (sts ++ [S.state])).length = 2 ^ (ak ++ S.keys).length := by
          rw [kronAll_concat, length_vector_kron, hlen,
            boundState_wf qm k S hwf hbs, List.length_append, pow_add]
        obtain ⟨sts1, ak1, hok, hlen1, hmono, hall⟩ :=
          ih (sts ++ [S.state]) (ak ++ S.keys)
            (fun k' hk' => hb k' (List.mem_cons_of_mem _ hk')) hlen2
        refine ⟨sts1, ak1, by rw [hstep]; exact hok, hlen1, ?_, ?_⟩
        · intro x hx
          exact hmono x (List.mem_append_left _ hx)
        · intro k' hk'
          rcases List.mem_cons.mp hk' with rfl | hk'r
          · exact hmono k' (List.mem_append_right _ hbk)
          · exact hall k' hk'r

/-- Boolean form of "the key resolves to a state object listing it", for
decidable hypotheses. -/
def gatheredOK (qm : QM R) (k : String) : Bool :=
  match boundState qm k with
  | some S => decide (k ∈ S.keys)
  | none => false

theorem gatheredOK_match (qm : QM R) (k : String) (h : gatheredOK qm k = true) :
    match boundState qm k with | some S => k ∈ S.keys | none => False := by
  unfold gatheredOK at h
  cases hb : boundState qm k <;> rw [hb] at h
  · simp at h
  · simpa using h

/-- Invariant of `prepare_state`'s reordering loop after processing positions
`< s`: key-list length and state dimension are preserved, the first `s`
positions agree with the caller's `keys`, the key list holds the same
elements as the gathered one, and the assignment semantics of the stored pair
equals that of the gathered kron composition. -/
def FixInv (keys : List String) (v0 : Vec R) (ak0 : List String) (s : ℕ)
    (vak : Vec R × List String) : Prop :=
  vak.2.length = ak0.length ∧
  vak.1.length = 2 ^ ak0.length ∧
  (∀ p, p < s → p < keys.length → vak.2.getD p "" = keys.getD p "") ∧
  (∀ x, x ∈ vak.2 ↔ x ∈ ak0) ∧
  (∀ σ : String → Bool, ampAt vak.1 vak.2 σ = ampAt v0 ak0 σ)

theorem fixStep_inv (keys : List String) (v0 : Vec R) (ak0 : List String)
    (hnd : keys.Nodup) (hsub : ∀ x ∈ keys, x ∈ ak0)
    (s : ℕ) (hs : s < keys.length) (vak : Vec R × List String)
    (hinv : FixInv keys v0 ak0 s vak) :
    ∃ vak1, fixStep keys vak s = .ok vak1 ∧ FixInv keys v0 ak0 (s + 1) vak1 := by
  obtain ⟨v, ak⟩ := vak
  obtain ⟨hlen, hvlen, hpre, hmem, hamp⟩ := hinv
  simp only at hlen hvlen hpre hmem hamp
  have hkle : keys.length ≤ ak.length := by
    rw [hlen]
    exact nodup_subset_length keys ak0 hnd hsub
  have hsak : s < ak.length := lt_of_lt_of_le hs hkle
  unfold fixStep
  simp only
  by_cases heq : ak.getD s "" = keys.getD s ""
  · rw [if_pos heq]
    refine ⟨(v, ak), rfl, hlen, hvlen, ?_, hmem, hamp⟩
    intro p hp hpk
    rcases Nat.lt_succ_iff_lt_or_eq.mp hp with h | h
    · exact hpre p h hpk
    · rw [h]
      exact heq
  · rw [if_neg heq]
    set pk := keys.getD s "" with hpkdef
    set j := ak.indexOf pk with hjdef
    have hpkmem : pk ∈ keys := getD_mem keys s hs
    have hpkak : pk ∈ ak := (hmem _).mpr (hsub _ hpkmem)
    have hjlt : j < ak.length := List.indexOf_lt_length.mpr hpkak
    have hkj : ak.getD j "" = pk := by
      rw [List.getD_eq_getElem _ _ hjlt]
      exact List.getElem_indexOf hjlt
    have hs_ne_j : s ≠ j := by
      intro hcon
      rw [← hcon] at hkj
      exact heq hkj
    have hcond : s < ak.length ∧ j < ak.length := ⟨hsak, hjlt⟩
    rw [if_pos hcond]
    have hsj_gt : s < j := by
      rcases Nat.lt_or_ge j s with hlt | hge
      · exfalso
        have hjk : j < keys.length := lt_trans hlt hs
        have h1 : ak.getD j "" = keys.getD j "" := hpre _ hlt hjk
        have h2 : keys.getD j "" = pk := by
          rw [← h1, hkj]
        rw [hpkdef, List.getD_eq_getElem _ _ hjk, List.getD_eq_getElem _ _ hs] at h2
        have := (List.Nodup.getElem_inj_iff hnd).mp h2
        omega
      · omega
    refine ⟨_, rfl, ?_, ?_, ?_, ?_, ?_⟩
    · simp [hlen]
    · rw [length_applyGate2]
      exact hvlen
    · intro p hp hpk2
      rcases Nat.lt_succ_iff_lt_or_eq.mp hp with h | h
      · rw [getD_set_other _ _ _ _ _ (by omega), getD_set_other _ _ _ _ _ (by omega)]
        exact hpre p h hpk2
      · rw [h, getD_set_self _ _ _ _ (by simpa using hsak)]
    · intro x
      have hmw := mem_set_swap ak s j hsak hjlt hs_ne_j x
      rw [hkj] at hmw
      exact hmw.trans (hmem x)
    · intro σ
      have haw := ampAt_swap v ak s j
        (by rw [hlen]; exact hvlen) hsak hjlt hs_ne_j σ
      rw [hkj] at haw
      exact haw.trans (hamp σ)

theorem fixRange_inv (keys : List String) (v0 : Vec R) (ak0 : List String)
    (hnd : keys.Nodup) (hsub : ∀ x ∈ keys, x ∈ ak0) :
    ∀ (cnt s : ℕ) (vak : Vec R × List String), s + cnt = keys.length →
      FixInv keys v0 ak0 s vak →
      ∃ vak1, (List.range' s cnt).foldlM (fixStep keys) vak = .ok vak1 ∧
        FixInv keys v0 ak0 keys.length vak1 := by
  intro cnt
  induction cnt with
  | zero =>
    intro s vak hsum hinv
    refine ⟨vak, rfl, ?_⟩
    have hse : s = keys.length := by omega
    rwa [hse] at hinv
  | succ cnt ih =>
    intro s vak hsum hinv
    have hs : s < keys.length := by omega
    obtain ⟨vak1, hok, hinv1⟩ := fixStep_inv keys v0 ak0 hnd hsub s hs vak hinv
    obtain ⟨vak2, hok2, hinv2⟩ := ih (s + 1) vak1 (by omega) hinv1
    refine ⟨vak2, ?_, hinv2⟩
    rw [List.range'_succ]
    simp only [List.foldlM]
    rw [hok]
    exact hok2

/-- C4 (amended): `prepare_state` composes the gathered underlying states by
tensor product and applies a chain of SWAP gates, in lockstep with key-entry
transpositions, so that on success position `p` of the returned key list
carries `keys[p]` for every `p < |keys|`; no inverse permutation is applied
on exit — instead the permuted key list is returned together with the
permuted amplitudes, and the stored pair reads the same as the gathered
composition: the assignment semantics of (state, key list) is preserved, so
the stored key order is consistent with the stored amplitudes. -/
theorem c4_prepare_aligns (qm : QM R) (keys : List String)
    (hnd : keys.Nodup)
    (hb : ∀ k ∈ keys, gatheredOK qm k = true)
    (hwf : ∀ p ∈ qm.heap, p.2.state.length = 2 ^ p.2.keys.length) :
    ∃ sts ak0 v ak, gatherStates qm keys = .ok (sts, ak0) ∧
      prepareState qm keys = .ok (v, ak) ∧
      ak.length = ak0.length ∧
      (∀ p, p < keys.length → ak.getD p "" = keys.getD p "") ∧
      (∀ x, x ∈ ak ↔ x ∈ ak0) ∧
      (∀ σ : String → Bool, ampAt v ak σ = ampAt (kronAll sts) ak0 σ) := by
  obtain ⟨sts, ak0, hok, hlen, _hmono, hall⟩ :=
    gatherAux_ok qm hwf keys [] [] (fun k hk => gatheredOK_match qm k (hb k hk))
      (by simp [kronAll, unitVec])
  have hinv0 : FixInv keys (kronAll sts) ak0 0 (kronAll sts, ak0) :=
    ⟨rfl, hlen, fun p hp _ => absurd hp (Nat.not_lt_zero p),
      fun x => Iff.rfl, fun σ => rfl⟩
  obtain ⟨vak1, hfold, hinv⟩ :=
    fixRange_inv keys (kronAll sts) ak0 hnd hall keys.length 0
      (kronAll sts, ak0) (by omega) hinv0
  obtain ⟨hl1, _hl2, hpre, hmem, hamp⟩ := hinv
  refine ⟨sts, ak0, vak1.1, vak1.2, hok, ?_, hl1,
    fun p hp => hpre p hp hp, hmem, hamp⟩
  unfold prepareState
  rw [show gatherStates qm keys = .ok (sts, ak0) from hok]
  show fixAll keys (kronAll sts, ak0) = .ok (vak1.1, vak1.2)
  unfold fixAll
  rw [List.range_eq_range']
  rw [hfold]

theorem c4_prepare_aligns_witness :
    ((["b", "a"] : List String).Nodup ∧
      (∀ k ∈ (["b", "a"] : List String), gatheredOK qmAB k = true) ∧
      (∀ p ∈ qmAB.heap, p.2.state.length = 2 ^ p.2.keys.length)) ∧
    (∃ sts ak0 v ak, gatherStates qmAB ["b", "a"] = .ok (sts, ak0) ∧
      prepareState qmAB ["b", "a"] = .ok (v, ak) ∧
      ak.length = ak0.length ∧
      (∀ p, p < (["b", "a"] : List String).length →
        ak.getD p "" = (["b", "a"] : List String).getD p "") ∧
      (∀ x, x ∈ ak ↔ x ∈ ak0) ∧
      (∀ σ : String → Bool, ampAt v ak σ = ampAt (kronAll sts) ak0 σ)) :=
  ⟨⟨by decide, by decide, by decide⟩,
    c4_prepare_aligns qmAB ["b", "a"] (by decide) (by decide) (by decide)⟩

/-- C4 counterexample: the state is NOT permuted back on exit.  Running the
empty circuit over keys `["b","a"]` on the joint state stored as
(`["a","b"]`, |10⟩) stores (`["b","a"]`, swapped amplitudes) — the stored key
order differs from the original and the original (key order, amplitudes) pair
is not restored. -/
theorem c4_not_permuted_back_cex :
    runCircuit (1 : ℤ) invSqrtZ qmAB emptyCaches ⟨2, [], []⟩ ["b", "a"] 0 =
      .ok ([], qmSetC qmAB ["b", "a"] [⟨0, 0⟩, ⟨1, 0⟩, ⟨0, 0⟩, ⟨0, 0⟩],
        emptyCaches) ∧
    boundState qmAB "b" = some ⟨["a", "b"], [⟨0, 0⟩, ⟨0, 0⟩, ⟨1, 0⟩, ⟨0, 0⟩]⟩ ∧
    boundState (qmSetC qmAB ["b", "a"] [⟨0, 0⟩, ⟨1, 0⟩, ⟨0, 0⟩, ⟨0, 0⟩]) "b" =
      some ⟨["b", "a"], [⟨0, 0⟩, ⟨1, 0⟩, ⟨0, 0⟩, ⟨0, 0⟩]⟩ ∧
    (["b", "a"] : List String) ≠ ["a", "b"] ∧
    ([⟨0, 0⟩, ⟨1, 0⟩, ⟨0, 0⟩, ⟨0, 0⟩] : Vec ℤ) ≠
      [⟨0, 0⟩, ⟨0, 0⟩, ⟨1, 0⟩, ⟨0, 0⟩] := by decide

end QuantumManagerModel
